import Mathlib

/-!
# SimpleVector: a shallow embedding of `simple_vector.h`

The owned run of an `ArrayPtr<Type>` is a `List T`; the empty list is the null
pointer (`ArrayPtr(0)` allocates nothing).  `size_` and `capacity_` are kept as
separate fields exactly as in the class, so that states in which `capacity_`
differs from the length of the run can be written down.

Element values: `default` is `Type{}`, `0` is what the literal `0` passed to
`std::fill` converts to.  `std::move` of an element is modelled as a copy.

`size_t` arithmetic.  `size_ * 2`, `size_ + 1` and `n_pos + 1` are computed on
numbers bounded by the length of a live allocation, which is below `2 ^ 63`, so
they are plain natural-number operations.  `new_size * 2` in `Resize` is computed
on a caller-supplied value and is taken modulo `2 ^ 64`.

Arguments.  `PushBack` takes its argument by reference.  `SimpleVector.PushBack` is
the function for an argument outside the array's own buffer; `HeapVector.PushBack`
models the reference, which may designate an element of the array itself.  Of the
two `Insert` overloads only the `Type&&` one can be instantiated (`InsertMove`).

Two objects.  Functions that touch a second object (`swap`, the move constructor,
move assignment) return both objects after the call.  Where the identity of the
owned run matters (`ArrayPtr` move assignment, the deep copy made by the copy
constructor), `ArrayPtr` is a pointer into a `Heap` of runs and a `HeapVector` is
a `SimpleVector` object whose buffer lives in that heap.
-/

namespace SimpleVectorModel

/-- Width of `size_t` on the modelled (LP64) platform. -/
def SIZE_BITS : Nat := 64

/-- Ways in which a call can end without a value: the exception of `At`, a failed
`assert`, an access outside the run a pointer refers to, an access to a run that
has been deleted, and a call that the compiler rejects because the member
function has no valid instantiation. -/
inductive Fault where
  | out_of_range
  | assertion_failed
  | out_of_bounds
  | use_after_free
  | ill_formed
  deriving DecidableEq, Repr

/-- Model of `ArrayPtr(size)`: `new Type[size]{}` value-initialises every element,
and nothing is allocated when `size` is zero. -/
def ArrayPtr_new (T : Type) [Inhabited T] (size : Nat) : List T :=
  if size > 0 then List.replicate size default else []

/-- Model of `ArrayPtr::operator[]` used as an rvalue: reading outside the owned
run has no defined value. -/
def ArrayPtr_read {T : Type} (raw : List T) (index : Nat) : Except Fault T :=
  match raw[index]? with
  | some x => .ok x
  | none => .error .out_of_bounds

/-- Loop of `std::copy` / `std::move` between two different runs: `n` elements are
taken from `src` starting at `first` and stored into `dst` starting at `d`, front
to back. -/
def copy_loop {T : Type} (src : List T) : Nat → Nat → List T → Nat → List T
  | 0, _, dst, _ => dst
  | n + 1, first, dst, d =>
    match src[first]? with
    | some x => copy_loop src n (first + 1) (dst.set d x) (d + 1)
    | none => copy_loop src n (first + 1) dst (d + 1)

/-- Model of `std::copy(first, last, d_first)` with the source range in `src` and
the destination in another run `dst`. -/
def std_copy {T : Type} (src : List T) (first last : Nat) (dst : List T) (d_first : Nat) :
    List T :=
  copy_loop src (last - first) first dst d_first

/-- Model of `std::move(first, last, d_first)` between two runs (element moves are
copies). -/
def std_move {T : Type} (src : List T) (first last : Nat) (dst : List T) (d_first : Nat) :
    List T :=
  std_copy src first last dst d_first

/-- Loop of `std::move` when source and destination lie in the same run: each
step reads the current content of the run. -/
def move_loop {T : Type} : Nat → List T → Nat → Nat → List T
  | 0, buf, _, _ => buf
  | n + 1, buf, first, d =>
    match buf[first]? with
    | some x => move_loop n (buf.set d x) (first + 1) (d + 1)
    | none => move_loop n buf (first + 1) (d + 1)

/-- Model of `std::move(first, last, d_first)` inside one run. -/
def std_move_within {T : Type} (buf : List T) (first last d_first : Nat) : List T :=
  move_loop (last - first) buf first d_first

/-- Loop of `std::fill`: `n` slots starting at `first` receive `value`. -/
def fill_loop {T : Type} (value : T) : Nat → List T → Nat → List T
  | 0, buf, _ => buf
  | n + 1, buf, first => fill_loop value n (buf.set first value) (first + 1)

/-- Model of `std::fill(first, last, value)` on the slots `[first, last)` of a run. -/
def std_fill {T : Type} (buf : List T) (first last : Nat) (value : T) : List T :=
  fill_loop value (last - first) buf first

/-- The class `SimpleVector<Type>`: the run owned by `items_`, and the two
counters. -/
structure SimpleVector (T : Type) where
  items_ : List T := []
  size_ : Nat := 0
  capacity_ : Nat := 0
  deriving Repr, DecidableEq

namespace SimpleVector

variable {T : Type}

/-- Default constructor. -/
def empty : SimpleVector T := { items_ := [], size_ := 0, capacity_ := 0 }

/-- Representation invariant of the data model: `size_ ≤ capacity_` and
`capacity_` is the length of the owned run. -/
def WF (v : SimpleVector T) : Prop :=
  v.size_ ≤ v.capacity_ ∧ v.items_.length = v.capacity_

instance (v : SimpleVector T) : Decidable (WF v) := by
  unfold WF; exact inferInstance

/-- Elements of the range `[begin(), end())`. -/
def contents (v : SimpleVector T) : List T := v.items_.take v.size_

def GetSize (v : SimpleVector T) : Nat := v.size_

def GetCapacity (v : SimpleVector T) : Nat := v.capacity_

def IsEmpty (v : SimpleVector T) : Bool := v.size_ == 0

/-- Model of `operator[]`: the assertion, then the read. -/
def subscript (v : SimpleVector T) (index : Nat) : Except Fault T :=
  if v.GetSize > index then ArrayPtr_read v.items_ index
  else .error .assertion_failed

/-- Model of `At`. -/
def At (v : SimpleVector T) (index : Nat) : Except Fault T :=
  if index ≥ v.GetSize then .error .out_of_range
  else ArrayPtr_read v.items_ index

def Clear (v : SimpleVector T) : SimpleVector T := { v with size_ := 0 }

/-- Model of `Reserve`. -/
def Reserve [Inhabited T] [Zero T] (v : SimpleVector T) (new_capacity : Nat) :
    SimpleVector T :=
  if new_capacity > v.capacity_ then
    let new_vector := ArrayPtr_new T new_capacity
    let new_vector := std_move v.items_ 0 v.size_ new_vector 0
    let new_vector := std_fill new_vector v.size_ new_capacity 0
    { items_ := new_vector, size_ := v.size_, capacity_ := new_capacity }
  else v

/-- Model of `Resize`.  `new_size * 2` is a `size_t` product.  The value is the state
the source reaches whenever the old size does not exceed the new capacity, which
covers every `new_size` with `new_size * 2 < 2 ^ 64` and every call on an empty
array; when the wrapped product is below the old size the source writes past the
new run, and the value given here has no counterpart in the program. -/
def Resize [Inhabited T] (v : SimpleVector T) (new_size : Nat) : SimpleVector T :=
  if new_size = v.size_ then v
  else if new_size < v.size_ then { v with size_ := new_size }
  else
    let old_size := v.size_
    let capacity := if new_size > v.capacity_ then (new_size * 2) % 2 ^ SIZE_BITS
                    else v.capacity_
    let new_vector := ArrayPtr_new T capacity
    let new_vector := std_move v.items_ 0 old_size new_vector 0
    let new_vector := std_fill new_vector old_size capacity default
    { items_ := new_vector, size_ := new_size, capacity_ := capacity }

/-- Model of `PushBack(const Type&)` for an argument that refers to an object
outside the array's own buffer, whose value is `item`.  The reference parameter
in general, which may designate an element of the array itself, is modelled by
`HeapVector.PushBack`. -/
def PushBack [Inhabited T] [Zero T] (v : SimpleVector T) (item : T) : SimpleVector T :=
  let v1 : SimpleVector T :=
    if v.capacity_ = v.size_ then
      let new_capacity := if v.size_ > 0 then v.size_ * 2 else 1
      let new_vector := ArrayPtr_new T new_capacity
      let new_vector := std_copy v.items_ 0 v.size_ new_vector 0
      let new_vector := std_fill new_vector v.size_ new_capacity 0
      { items_ := new_vector, size_ := v.size_, capacity_ := new_capacity }
    else v
  { v1 with items_ := v1.items_.set v1.size_ item, size_ := v1.size_ + 1 }

/-- Model of `PushBack(Type&&)` for an argument that refers to an object outside
the array's own buffer, whose value is `item`; see `HeapVector.PushBackMove` for
the reference parameter in general. -/
def PushBackMove [Inhabited T] [Zero T] (v : SimpleVector T) (item : T) : SimpleVector T :=
  let v1 : SimpleVector T :=
    if v.capacity_ = v.size_ then
      let new_capacity := if v.size_ > 0 then v.size_ * 2 else 1
      let new_vector := ArrayPtr_new T new_capacity
      let new_vector := std_move v.items_ 0 v.size_ new_vector 0
      let new_vector := std_fill new_vector v.size_ new_capacity 0
      { items_ := new_vector, size_ := v.size_, capacity_ := new_capacity }
    else v
  { v1 with items_ := v1.items_.set v1.size_ item, size_ := v1.size_ + 1 }

/-- Model of `Insert(ConstIterator, const Type&)`.  This overload has no valid
instantiation: at line 239 `std::copy(begin(), pos, new_vector.Get())` passes
`begin()`, which is a `Type*` because the member function is not const, and
`pos`, which is a `const Type*`, for the same template parameter of `std::copy`.
A call with an lvalue argument is therefore rejected by the compiler, whatever
the array, the position and the value are. -/
def Insert (_v : SimpleVector T) (_n_pos : Nat) (_value : T) :
    Except Fault (SimpleVector T × Nat) :=
  .error .ill_formed

/-- Model of `Insert(ConstIterator, Type&&)`, the overload every call with an
rvalue argument selects.  The iterator `pos` is `begin() + n_pos`; the returned
iterator `&items_[n_pos]` is the index `n_pos` in the new state. -/
def InsertMove [Inhabited T] [Zero T] (v : SimpleVector T) (n_pos : Nat) (value : T) :
    Except Fault (SimpleVector T × Nat) :=
  if n_pos ≤ v.size_ then
    let new_capacity :=
      if v.capacity_ = v.size_ then (if v.size_ > 0 then v.size_ * 2 else 1)
      else v.capacity_
    let new_vector := ArrayPtr_new T new_capacity
    let new_vector := std_move v.items_ 0 n_pos new_vector 0
    let new_vector := new_vector.set n_pos value
    let new_vector := std_move v.items_ n_pos v.size_ new_vector (n_pos + 1)
    let new_vector := std_fill new_vector (v.size_ + 1) new_capacity 0
    .ok ({ items_ := new_vector, size_ := v.size_ + 1, capacity_ := new_capacity }, n_pos)
  else .error .assertion_failed

/-- Model of `PopBack`. -/
def PopBack (v : SimpleVector T) : Except Fault (SimpleVector T) :=
  if v.IsEmpty then .error .assertion_failed
  else .ok { v with size_ := v.size_ - 1 }

/-- Model of `Erase`.  The iterator `pos` is `begin() + n_pos`; the returned
iterator is the index `n_pos` in the new state. -/
def Erase (v : SimpleVector T) (n_pos : Nat) : Except Fault (SimpleVector T × Nat) :=
  if v.IsEmpty then .error .assertion_failed
  else if n_pos < v.size_ then
    let items := std_move_within v.items_ (n_pos + 1) v.size_ n_pos
    .ok ({ v with items_ := items, size_ := v.size_ - 1 }, n_pos)
  else .error .assertion_failed

end SimpleVector

/-- Model of the four-iterator `std::equal` on two ranges. -/
def std_equal {T : Type} [DecidableEq T] : List T → List T → Bool
  | [], [] => true
  | x :: xs, y :: ys => if x = y then std_equal xs ys else false
  | _, _ => false

/-- Model of `std::lexicographical_compare` on two ranges, with `<` of the
element type. -/
def std_lexicographical_compare {T : Type} [LT T] [DecidableRel (fun a b : T => a < b)] :
    List T → List T → Bool
  | [], [] => false
  | [], _ :: _ => true
  | _ :: _, [] => false
  | x :: xs, y :: ys =>
    if x < y then true
    else if y < x then false
    else std_lexicographical_compare xs ys

namespace SimpleVector

variable {T : Type}

/-- Model of `operator==`. -/
def eq [DecidableEq T] (lhs rhs : SimpleVector T) : Bool :=
  std_equal lhs.contents rhs.contents

/-- Model of `operator!=`. -/
def ne [DecidableEq T] (lhs rhs : SimpleVector T) : Bool :=
  !std_equal lhs.contents rhs.contents

/-- Model of `operator<`. -/
def lt [LT T] [DecidableRel (fun a b : T => a < b)] (lhs rhs : SimpleVector T) : Bool :=
  std_lexicographical_compare lhs.contents rhs.contents

/-- Model of `operator>`. -/
def gt [LT T] [DecidableRel (fun a b : T => a < b)] (lhs rhs : SimpleVector T) : Bool :=
  std_lexicographical_compare rhs.contents lhs.contents

/-- Model of `operator<=`. -/
def le [LT T] [DecidableRel (fun a b : T => a < b)] (lhs rhs : SimpleVector T) : Bool :=
  !(gt lhs rhs)

/-- Model of `operator>=`. -/
def ge [LT T] [DecidableRel (fun a b : T => a < b)] (lhs rhs : SimpleVector T) : Bool :=
  !(lt lhs rhs)

end SimpleVector

namespace SimpleVector

variable {T : Type}

/-- Calls `PushBack(f 0)`, ..., `PushBack(f (k - 1))` in this order on a
default-constructed array. -/
def pushMany [Inhabited T] [Zero T] (f : Nat → T) : Nat → SimpleVector T
  | 0 => empty
  | k + 1 => PushBack (pushMany f k) (f k)

/-- Runs `n` rounds of: read the front element `v[0]`, then `Erase(begin())`.
Returns the values read, in order, and the final array. -/
def eraseFront : Nat → SimpleVector T → Except Fault (List T × SimpleVector T)
  | 0, v => .ok ([], v)
  | n + 1, v =>
    match subscript v 0 with
    | .error e => .error e
    | .ok x =>
      match Erase v 0 with
      | .error e => .error e
      | .ok (v1, _) =>
        match eraseFront n v1 with
        | .error e => .error e
        | .ok (xs, v2) => .ok (x :: xs, v2)

end SimpleVector

/-- Lexicographic "less than" on two sequences in the words of the specification:
either the first is a proper prefix of the second, or at the first index where
they differ the element of the first is less than the element of the second. -/
def LexLess {T : Type} [LT T] (xs ys : List T) : Prop :=
  (xs.length < ys.length ∧ ∀ i, i < xs.length → xs[i]? = ys[i]?) ∨
  (∃ (k : Nat) (x y : T), xs[k]? = some x ∧ ys[k]? = some y ∧ x ≠ y ∧ (∀ i, i < k → xs[i]? = ys[i]?) ∧ x < y)

/-! ## Constructors, assignment and swap -/

namespace SimpleVector

variable {T : Type}

/-- Model of `SimpleVector(size_t size)`. -/
def ctor_size [Inhabited T] (size : Nat) : SimpleVector T :=
  { items_ := ArrayPtr_new T size, size_ := size, capacity_ := size }

/-- Model of `SimpleVector(size_t size, const Type& value)`: `std::fill` over
`[begin(), end())`. -/
def ctor_fill [Inhabited T] (size : Nat) (value : T) : SimpleVector T :=
  { items_ := std_fill (ArrayPtr_new T size) 0 size value, size_ := size, capacity_ := size }

/-- Model of `SimpleVector(std::initializer_list<Type> init)`. -/
def ctor_init [Inhabited T] (init : List T) : SimpleVector T :=
  { items_ := std_copy init 0 init.length (ArrayPtr_new T init.length) 0,
    size_ := init.length, capacity_ := init.length }

/-- Model of the copy constructor `SimpleVector(const SimpleVector& other)`. -/
def ctor_copy [Inhabited T] (other : SimpleVector T) : SimpleVector T :=
  { items_ := std_copy other.items_ 0 other.size_ (ArrayPtr_new T other.size_) 0,
    size_ := other.size_, capacity_ := other.size_ }

/-- Model of the move constructor `SimpleVector(SimpleVector&& other)`: the new
object, and `other` after the call.  The constructor allocates a run of
`other.size_` elements, moves the elements into it and sets `other.size_` and
`other.capacity_` to zero; `other.items_` is not touched. -/
def ctor_move [Inhabited T] (other : SimpleVector T) : SimpleVector T × SimpleVector T :=
  ({ items_ := std_move other.items_ 0 other.size_ (ArrayPtr_new T other.size_) 0,
     size_ := other.size_, capacity_ := other.size_ },
   { other with size_ := 0, capacity_ := 0 })

/-- Model of `SimpleVector(ReserveProxyObj obj)`: default member initialisers, then
`Reserve(obj.GetCapacity())`. -/
def ctor_reserve [Inhabited T] [Zero T] (capacity_to_reserve : Nat) : SimpleVector T :=
  Reserve empty capacity_to_reserve

/-- Model of `swap(SimpleVector& other)`: `*this` and `other` after the call. -/
def swap (self other : SimpleVector T) : SimpleVector T × SimpleVector T :=
  ({ items_ := other.items_, size_ := other.size_, capacity_ := other.capacity_ },
   { items_ := self.items_, size_ := self.size_, capacity_ := self.capacity_ })

/-- Model of `operator=(const SimpleVector& rhs)` for `this != &rhs`: the new
`*this` (`rhs` is const; the temporary is destroyed). -/
def operator_assign_copy [Inhabited T] (self rhs : SimpleVector T) : SimpleVector T :=
  let self1 := if rhs.IsEmpty then Clear self else self
  let temp := ctor_copy rhs
  (swap self1 temp).1

/-- Model of `operator=(SimpleVector&& rhs)` for `this != &rhs`: `*this` and `rhs`
after the call.  In `SimpleVector temp(rhs);` the name `rhs` is an lvalue, so the
temporary is built by the copy constructor and `rhs` is not written. -/
def operator_assign_move [Inhabited T] (self rhs : SimpleVector T) :
    SimpleVector T × SimpleVector T :=
  let self1 := if rhs.IsEmpty then Clear self else self
  let temp := ctor_copy rhs
  ((swap self1 temp).1, rhs)

/-- Model of either `operator=` when `this == &rhs`: only the `IsEmpty` branch can
run. -/
def operator_assign_self (self : SimpleVector T) : SimpleVector T :=
  if self.IsEmpty then Clear self else self

/-- Model of the element write `v[index] = value` through the non-const
`operator[]`. -/
def assign_at (v : SimpleVector T) (index : Nat) (value : T) : Except Fault (SimpleVector T) :=
  if v.GetSize > index then .ok { v with items_ := v.items_.set index value }
  else .error .assertion_failed

end SimpleVector

/-! ## ArrayPtr at the level of pointers -/

/-- The class `ArrayPtr<Type>` seen as a pointer: `raw_ptr_` is the address of the
owned run, `none` is `nullptr`. -/
structure ArrayPtr where
  raw_ptr_ : Option Nat := none
  deriving DecidableEq, Repr

namespace ArrayPtr

/-- Model of `explicit operator bool()`. -/
def toBool (p : ArrayPtr) : Bool := p.raw_ptr_ != none

/-- Model of `Get()`. -/
def Get (p : ArrayPtr) : Option Nat := p.raw_ptr_

/-- Model of `Release()`: the returned pointer and the object after the call. -/
def Release (p : ArrayPtr) : Option Nat × ArrayPtr :=
  let out := p.raw_ptr_
  (out, { raw_ptr_ := none })

/-- Model of `swap(ArrayPtr& other)`: `*this` and `other` after the call. -/
def swap (self other : ArrayPtr) : ArrayPtr × ArrayPtr :=
  ({ raw_ptr_ := other.raw_ptr_ }, { raw_ptr_ := self.raw_ptr_ })

/-- Model of `operator=(const ArrayPtr&& rhs)`: `*this` and `rhs` after the call.
`rhs` is const, so `raw_ptr_ = std::move(rhs.raw_ptr_)` copies the pointer. -/
def operator_assign_move (self rhs : ArrayPtr) : ArrayPtr × ArrayPtr :=
  if self.raw_ptr_ ≠ rhs.raw_ptr_ then ({ raw_ptr_ := rhs.raw_ptr_ }, rhs)
  else (self, rhs)

end ArrayPtr

/-! ## Arrays in a free store -/

/-- The free store: `cells[a]` is the run allocated at address `a`, `none` once it
has been deleted. -/
structure Heap (T : Type) where
  cells : List (Option (List T)) := []

namespace Heap

variable {T : Type}

/-- The run a pointer refers to (nothing for `nullptr` or a deleted run). -/
def run (h : Heap T) (p : ArrayPtr) : List T :=
  match p.raw_ptr_ with
  | none => []
  | some a =>
    match h.cells[a]? with
    | some (some r) => r
    | _ => []

/-- A pointer is null or the address of a cell of the store. -/
def owns (h : Heap T) (p : ArrayPtr) : Prop :=
  match p.raw_ptr_ with
  | none => True
  | some a => a < h.cells.length

/-- Model of the allocation done by `ArrayPtr(size)` once the run has been filled
by its constructor's caller: a non-empty run is placed at the next unused
address, an empty one is the null pointer. -/
def new_array (h : Heap T) (r : List T) : Heap T × ArrayPtr :=
  if r.length > 0 then ({ cells := h.cells ++ [some r] }, { raw_ptr_ := some h.cells.length })
  else (h, { raw_ptr_ := none })

/-- Writes through a pointer: the run at its address is replaced. -/
def store (h : Heap T) (p : ArrayPtr) (r : List T) : Heap T :=
  match p.raw_ptr_ with
  | none => h
  | some a => { cells := h.cells.set a (some r) }

/-- Reads element `index` of the run a pointer refers to.  A run that has been
deleted (or was never allocated) cannot be read. -/
def read (h : Heap T) (p : ArrayPtr) (index : Nat) : Except Fault T :=
  match p.raw_ptr_ with
  | none => .error .out_of_bounds
  | some a =>
    match h.cells[a]? with
    | some (some r) =>
      match r[index]? with
      | some x => .ok x
      | none => .error .out_of_bounds
    | _ => .error .use_after_free

/-- Model of `delete[] raw_ptr_` in `~ArrayPtr()`. -/
def delete (h : Heap T) (p : ArrayPtr) : Heap T :=
  match p.raw_ptr_ with
  | none => h
  | some a => { cells := h.cells.set a none }

end Heap

/-- A `SimpleVector` object whose `items_` is a pointer into a free store. -/
structure HeapVector where
  items_ : ArrayPtr := {}
  size_ : Nat := 0
  capacity_ : Nat := 0
  deriving DecidableEq, Repr

/-- What the reference parameter `item` of `PushBack` is bound to when the call is
made: an object outside the array's buffer holding `x`, or the element
`items_[index]` of the array itself, as in `v.PushBack(v[index])`. -/
inductive ItemRef (T : Type) where
  | object (x : T)
  | element (index : Nat)

/-- Operations that change an array, as listed for the copy. -/
inductive Mutation (T : Type) where
  | write (index : Nat) (value : T)
  | pushBack (item : T)
  | insert (n_pos : Nat) (value : T)
  | erase (n_pos : Nat)
  | resize (new_size : Nat)
  | clear

namespace HeapVector

variable {T : Type}

/-- The array an object denotes in a store. -/
def view (h : Heap T) (c : HeapVector) : SimpleVector T :=
  { items_ := h.run c.items_, size_ := c.size_, capacity_ := c.capacity_ }

/-- Effect on the store of a member function that takes the object from
`view h c` to `v1`.  With `swapped` the function built `new_vector`, swapped it
with `items_` and the old run was deleted when `new_vector` went out of scope;
otherwise it wrote through `items_` in place. -/
def commit (h : Heap T) (c : HeapVector) (v1 : SimpleVector T) (swapped : Bool) :
    Heap T × HeapVector :=
  if swapped then
    let hp := h.new_array v1.items_
    (hp.1.delete c.items_, { items_ := hp.2, size_ := v1.size_, capacity_ := v1.capacity_ })
  else
    (h.store c.items_ v1.items_, { c with size_ := v1.size_, capacity_ := v1.capacity_ })

/-- Copy constructor in a store: `items_(other.size_)` is a new allocation. -/
def ctor_copy [Inhabited T] (h : Heap T) (other : HeapVector) : Heap T × HeapVector :=
  let v := SimpleVector.ctor_copy (view h other)
  let hp := h.new_array v.items_
  (hp.1, { items_ := hp.2, size_ := v.size_, capacity_ := v.capacity_ })

/-- One mutation of the object `c` in the store `h`.  `PushBack` replaces the run
when `capacity_ == size_`, `Insert` always, `Resize` when `new_size > size_`; the
others work in place.  The arguments of `PushBack` and `Insert` are values held
outside the array's buffer. -/
def apply [Inhabited T] [Zero T] (h : Heap T) (c : HeapVector) :
    Mutation T → Except Fault (Heap T × HeapVector)
  | .write index value =>
    match SimpleVector.assign_at (view h c) index value with
    | .ok v1 => .ok (commit h c v1 false)
    | .error e => .error e
  | .pushBack item =>
    .ok (commit h c (SimpleVector.PushBack (view h c) item) (c.capacity_ == c.size_))
  | .insert n_pos value =>
    match SimpleVector.InsertMove (view h c) n_pos value with
    | .ok (v1, _) => .ok (commit h c v1 true)
    | .error e => .error e
  | .erase n_pos =>
    match SimpleVector.Erase (view h c) n_pos with
    | .ok (v1, _) => .ok (commit h c v1 false)
    | .error e => .error e
  | .resize new_size =>
    .ok (commit h c (SimpleVector.Resize (view h c) new_size) (decide (new_size > c.size_)))
  | .clear => .ok (commit h c (SimpleVector.Clear (view h c)) false)

/-- Model of `PushBack(const Type&)` with its reference parameter.  Lines 188-201:
when `capacity_ == size_` the new run is built, swapped in, and the old run is
deleted as `new_vector` goes out of scope.  Line 202 then reads `item`: an
element reference still designates the run `items_` pointed to when the call was
made.  Line 203 increments the size. -/
def PushBack [Inhabited T] [Zero T] (h : Heap T) (c : HeapVector) (item : ItemRef T) :
    Except Fault (Heap T × HeapVector) :=
  let hc1 : Heap T × HeapVector :=
    if c.capacity_ = c.size_ then
      let new_capacity := if c.size_ > 0 then c.size_ * 2 else 1
      let new_vector := ArrayPtr_new T new_capacity
      let new_vector := std_copy (h.run c.items_) 0 c.size_ new_vector 0
      let new_vector := std_fill new_vector c.size_ new_capacity 0
      let hp := h.new_array new_vector
      (hp.1.delete c.items_, { items_ := hp.2, size_ := c.size_, capacity_ := new_capacity })
    else (h, c)
  let read : Except Fault T :=
    match item with
    | .object x => .ok x
    | .element index => hc1.1.read c.items_ index
  match read with
  | .error e => .error e
  | .ok x =>
    .ok (hc1.1.store hc1.2.items_ ((hc1.1.run hc1.2.items_).set hc1.2.size_ x),
      { hc1.2 with size_ := hc1.2.size_ + 1 })

/-- Model of `PushBack(Type&&)` with its reference parameter (lines 206-223); the
elements are moved into the new run and `item` is read at line 221, after the old
run was deleted. -/
def PushBackMove [Inhabited T] [Zero T] (h : Heap T) (c : HeapVector) (item : ItemRef T) :
    Except Fault (Heap T × HeapVector) :=
  let hc1 : Heap T × HeapVector :=
    if c.capacity_ = c.size_ then
      let new_capacity := if c.size_ > 0 then c.size_ * 2 else 1
      let new_vector := ArrayPtr_new T new_capacity
      let new_vector := std_move (h.run c.items_) 0 c.size_ new_vector 0
      let new_vector := std_fill new_vector c.size_ new_capacity 0
      let hp := h.new_array new_vector
      (hp.1.delete c.items_, { items_ := hp.2, size_ := c.size_, capacity_ := new_capacity })
    else (h, c)
  let read : Except Fault T :=
    match item with
    | .object x => .ok x
    | .element index => hc1.1.read c.items_ index
  match read with
  | .error e => .error e
  | .ok x =>
    .ok (hc1.1.store hc1.2.items_ ((hc1.1.run hc1.2.items_).set hc1.2.size_ x),
      { hc1.2 with size_ := hc1.2.size_ + 1 })

/-- A sequence of mutations of the same object, stopping at the first fault. -/
def applyAll [Inhabited T] [Zero T] :
    Heap T → HeapVector → List (Mutation T) → Except Fault (Heap T × HeapVector)
  | h, c, [] => .ok (h, c)
  | h, c, m :: ms =>
    match apply h c m with
    | .ok (h1, c1) => applyAll h1 c1 ms
    | .error e => .error e

end HeapVector

/-- An element type for which the value converted from the literal `0` is not the
value-initialised one, as for `std::string`: assigning `0` selects
`operator=(char)` and gives a string of one NUL character, while a
value-initialised `std::string` is empty. -/
structure Text where
  chars : List Nat
  deriving DecidableEq, Repr

instance : Inhabited Text := ⟨{ chars := [] }⟩

instance : Zero Text := ⟨{ chars := [0] }⟩

/-- Invariant kept by the whole interface: `size_ ≤ capacity_`, and `capacity_` is
the length of the owned run unless `size_` and `capacity_` are both 0, the state in
which the move constructor leaves its source, which keeps owning its run. -/
def SimpleVector.Inv {T : Type} (v : SimpleVector T) : Prop :=
  v.size_ ≤ v.capacity_ ∧ (v.items_.length = v.capacity_ ∨ (v.size_ = 0 ∧ v.capacity_ = 0))

instance {T : Type} (v : SimpleVector T) : Decidable (SimpleVector.Inv v) := by
  unfold SimpleVector.Inv; exact inferInstance

/-- Every slot of the buffer at an index in `[size_, capacity_)` holds `x`. -/
def SimpleVector.TailFilled {T : Type} (r : SimpleVector T) (x : T) : Prop :=
  ∀ i, r.size_ ≤ i → i < r.capacity_ → r.items_[i]? = some x

/-- Separation of two objects in a store: the pointer of `s` is null or an
allocated address, and the pointer of `c` is null or differs from it. -/
def HeapVector.Separate {T : Type} (h : Heap T) (s c : HeapVector) : Prop :=
  h.owns s.items_ ∧ (c.items_.raw_ptr_ = none ∨ c.items_.raw_ptr_ ≠ s.items_.raw_ptr_)

/-! ## Buffer primitives -/

theorem copy_loop_length {T : Type} (src : List T) (n first : Nat) (dst : List T) (d : Nat) :
    (copy_loop src n first dst d).length = dst.length := by
  induction n generalizing first dst d with
  | zero => rfl
  | succ n ih =>
    unfold copy_loop
    split <;> simp [ih]

theorem copy_loop_getElem? {T : Type} (src : List T) (n first : Nat) (dst : List T) (d i : Nat)
    (hsrc : first + n ≤ src.length) :
    (copy_loop src n first dst d)[i]? =
      if d ≤ i ∧ i < d + n ∧ i < dst.length then src[first + (i - d)]? else dst[i]? := by
  induction n generalizing first dst d with
  | zero =>
    have : ¬ (d ≤ i ∧ i < d ∧ i < dst.length) := by omega
    simp [copy_loop, this]
  | succ n ih =>
    have hlt : first < src.length := by omega
    unfold copy_loop
    rw [List.getElem?_eq_getElem hlt]
    simp only
    rw [ih (first + 1) (dst.set d src[first]) (d + 1) (by omega)]
    simp only [List.length_set, List.getElem?_set]
    by_cases h1 : d = i
    · subst h1
      by_cases h2 : d < dst.length
      · have : ¬ (d + 1 ≤ d ∧ d < d + 1 + n ∧ d < dst.length) := by omega
        have h3 : d ≤ d ∧ d < d + (n + 1) ∧ d < dst.length := by omega
        simp [this, h3, h2, List.getElem?_eq_getElem hlt]
      · have : ¬ (d + 1 ≤ d ∧ d < d + 1 + n ∧ d < dst.length) := by omega
        have h3 : ¬ (d ≤ d ∧ d < d + (n + 1) ∧ d < dst.length) := by omega
        have h4 : dst.length ≤ d := by omega
        simp [this, h3, h2, List.getElem?_eq_none h4]
    · by_cases h2 : d + 1 ≤ i ∧ i < d + 1 + n ∧ i < dst.length
      · have h3 : d ≤ i ∧ i < d + (n + 1) ∧ i < dst.length := by omega
        have h4 : first + 1 + (i - (d + 1)) = first + (i - d) := by omega
        simp only [h2, h3, and_self, if_true, h4]
      · have h3 : ¬ (d ≤ i ∧ i < d + (n + 1) ∧ i < dst.length) := by omega
        simp only [h2, h3, if_false, h1]

theorem fill_loop_length {T : Type} (value : T) (n : Nat) (buf : List T) (first : Nat) :
    (fill_loop value n buf first).length = buf.length := by
  induction n generalizing buf first with
  | zero => rfl
  | succ n ih => simp [fill_loop, ih]

theorem fill_loop_getElem? {T : Type} (value : T) (n : Nat) (buf : List T) (first i : Nat) :
    (fill_loop value n buf first)[i]? =
      if first ≤ i ∧ i < first + n ∧ i < buf.length then some value else buf[i]? := by
  induction n generalizing buf first with
  | zero =>
    have : ¬ (first ≤ i ∧ i < first ∧ i < buf.length) := by omega
    simp [fill_loop, this]
  | succ n ih =>
    unfold fill_loop
    rw [ih]
    simp only [List.length_set, List.getElem?_set]
    by_cases h1 : first = i
    · subst h1
      by_cases h2 : first < buf.length
      · have : ¬ (first + 1 ≤ first ∧ first < first + 1 + n ∧ first < buf.length) := by omega
        have h3 : first ≤ first ∧ first < first + (n + 1) ∧ first < buf.length := by omega
        simp [this, h3, h2]
      · have : ¬ (first + 1 ≤ first ∧ first < first + 1 + n ∧ first < buf.length) := by omega
        have h3 : ¬ (first ≤ first ∧ first < first + (n + 1) ∧ first < buf.length) := by omega
        have h4 : buf.length ≤ first := by omega
        simp [this, h3, h2, List.getElem?_eq_none h4]
    · by_cases h2 : first + 1 ≤ i ∧ i < first + 1 + n ∧ i < buf.length
      · have h3 : first ≤ i ∧ i < first + (n + 1) ∧ i < buf.length := by omega
        simp only [h2, h3, and_self, if_true]
      · have h3 : ¬ (first ≤ i ∧ i < first + (n + 1) ∧ i < buf.length) := by omega
        simp only [h2, h3, if_false, h1]

theorem move_loop_length {T : Type} (n : Nat) (buf : List T) (first d : Nat) :
    (move_loop n buf first d).length = buf.length := by
  induction n generalizing buf first d with
  | zero => rfl
  | succ n ih =>
    unfold move_loop
    split <;> simp [ih]

theorem move_loop_getElem? {T : Type} (n : Nat) (buf : List T) (first d i : Nat)
    (hd : d ≤ first) (hb : first + n ≤ buf.length) :
    (move_loop n buf first d)[i]? =
      if d ≤ i ∧ i < d + n then buf[first + (i - d)]? else buf[i]? := by
  induction n generalizing buf first d with
  | zero =>
    have : ¬ (d ≤ i ∧ i < d) := by omega
    simp [move_loop, this]
  | succ n ih =>
    have hlt : first < buf.length := by omega
    unfold move_loop
    rw [List.getElem?_eq_getElem hlt]
    simp only
    rw [ih (buf.set d buf[first]) (first + 1) (d + 1) (by omega) (by simp; omega)]
    simp only [List.getElem?_set]
    by_cases h1 : d = i
    · subst h1
      have : ¬ (d + 1 ≤ d ∧ d < d + 1 + n) := by omega
      have h3 : d ≤ d ∧ d < d + (n + 1) := by omega
      have h2 : d < buf.length := by omega
      simp [this, h3, h2, List.getElem?_eq_getElem hlt]
    · by_cases h2 : d + 1 ≤ i ∧ i < d + 1 + n
      · have h3 : d ≤ i ∧ i < d + (n + 1) := by omega
        have h4 : first + 1 + (i - (d + 1)) = first + (i - d) := by omega
        have h5 : d ≠ first + (i - d) := by omega
        simp only [h2, h3, and_self, if_true, h4, h5, if_false]
      · have h3 : ¬ (d ≤ i ∧ i < d + (n + 1)) := by omega
        simp only [h2, h3, if_false, h1]

theorem ArrayPtr_new_length (T : Type) [Inhabited T] (size : Nat) :
    (ArrayPtr_new T size).length = size := by
  unfold ArrayPtr_new
  split
  · simp
  · simp; omega

theorem ArrayPtr_new_getElem? (T : Type) [Inhabited T] (size i : Nat) :
    (ArrayPtr_new T size)[i]? = if i < size then some default else none := by
  unfold ArrayPtr_new
  split
  · simp [List.getElem?_replicate]
  · have : ¬ i < size := by omega
    simp [this]

theorem std_copy_length {T : Type} (src : List T) (first last : Nat) (dst : List T) (d : Nat) :
    (std_copy src first last dst d).length = dst.length :=
  copy_loop_length src (last - first) first dst d

theorem std_copy_getElem? {T : Type} (src : List T) (first last : Nat) (dst : List T) (d i : Nat)
    (hfl : first ≤ last) (hsrc : last ≤ src.length) :
    (std_copy src first last dst d)[i]? =
      if d ≤ i ∧ i < d + (last - first) ∧ i < dst.length then src[first + (i - d)]?
      else dst[i]? :=
  copy_loop_getElem? src (last - first) first dst d i (by omega)

theorem std_fill_length {T : Type} (buf : List T) (first last : Nat) (value : T) :
    (std_fill buf first last value).length = buf.length :=
  fill_loop_length value (last - first) buf first

theorem std_fill_getElem? {T : Type} (buf : List T) (first last : Nat) (value : T) (i : Nat) :
    (std_fill buf first last value)[i]? =
      if first ≤ i ∧ i < last ∧ i < buf.length then some value else buf[i]? := by
  unfold std_fill
  rw [fill_loop_getElem?]
  by_cases h : first ≤ i ∧ i < last ∧ i < buf.length
  · have h2 : first ≤ i ∧ i < first + (last - first) ∧ i < buf.length := by omega
    simp only [h, h2, and_self, if_true]
  · have h2 : ¬ (first ≤ i ∧ i < first + (last - first) ∧ i < buf.length) := by omega
    simp only [h, h2, if_false]

theorem std_move_within_length {T : Type} (buf : List T) (first last d : Nat) :
    (std_move_within buf first last d).length = buf.length :=
  move_loop_length (last - first) buf first d

theorem std_move_within_getElem? {T : Type} (buf : List T) (first last d i : Nat)
    (hd : d ≤ first) (hfl : first ≤ last) (hb : last ≤ buf.length) :
    (std_move_within buf first last d)[i]? =
      if d ≤ i ∧ i < d + (last - first) then buf[first + (i - d)]? else buf[i]? :=
  move_loop_getElem? (last - first) buf first d i hd (by omega)

/-! ## PushBack -/

namespace SimpleVector

variable {T : Type}

theorem PushBackMove_eq [Inhabited T] [Zero T] (v : SimpleVector T) (item : T) :
    PushBackMove v item = PushBack v item := rfl

theorem PushBack_size [Inhabited T] [Zero T] (v : SimpleVector T) (item : T) :
    (PushBack v item).size_ = v.size_ + 1 := by
  unfold PushBack
  split <;> rfl

theorem PushBack_capacity [Inhabited T] [Zero T] (v : SimpleVector T) (item : T) :
    (PushBack v item).capacity_ =
      if v.size_ = v.capacity_ then max 1 (2 * v.size_) else v.capacity_ := by
  unfold PushBack
  by_cases h : v.capacity_ = v.size_
  · have h2 : v.size_ = v.capacity_ := h.symm
    by_cases h3 : v.size_ > 0
    · simp [h, h3]; omega
    · have : v.size_ = 0 := by omega
      simp [h, this]
  · have h2 : ¬ v.size_ = v.capacity_ := fun e => h e.symm
    simp [h, h2]

theorem PushBack_length [Inhabited T] [Zero T] (v : SimpleVector T) (item : T)
    (hwf : WF v) : (PushBack v item).items_.length = (PushBack v item).capacity_ := by
  obtain ⟨h1, h2⟩ := hwf
  unfold PushBack
  by_cases h : v.capacity_ = v.size_
  · simp [h, std_fill_length, std_copy_length, ArrayPtr_new_length]
  · simp [h, h2]

theorem PushBack_getElem? [Inhabited T] [Zero T] (v : SimpleVector T) (item : T)
    (hwf : WF v) (i : Nat) (hi : i ≤ v.size_) :
    (PushBack v item).items_[i]? = if i = v.size_ then some item else v.items_[i]? := by
  obtain ⟨h1, h2⟩ := hwf
  unfold PushBack
  by_cases h : v.capacity_ = v.size_
  · simp only [h, if_true, List.getElem?_set, std_fill_length, std_copy_length,
      ArrayPtr_new_length]
    by_cases h3 : v.size_ = i
    · subst h3
      have : v.size_ < if v.size_ > 0 then v.size_ * 2 else 1 := by split <;> omega
      simp [this]
    · have h4 : ¬ i = v.size_ := fun e => h3 e.symm
      have h5 : ¬ (v.size_ ≤ i ∧ i < (if v.size_ > 0 then v.size_ * 2 else 1) ∧
          i < (ArrayPtr_new T (if v.size_ > 0 then v.size_ * 2 else 1)).length) := by omega
      have h6 : i < (if v.size_ > 0 then v.size_ * 2 else 1) := by split <;> omega
      simp only [h3, h4, if_false]
      rw [std_fill_getElem?, std_copy_length, if_neg h5,
        std_copy_getElem? _ _ _ _ _ _ (Nat.zero_le _) (by omega)]
      simp only [ArrayPtr_new_length]
      have h7 : 0 ≤ i ∧ i < 0 + (v.size_ - 0) ∧ i < (if v.size_ > 0 then v.size_ * 2 else 1) := by
        omega
      rw [if_pos h7]
      simp
  · simp only [h, if_false, List.getElem?_set]
    by_cases h3 : v.size_ = i
    · subst h3
      have : v.size_ < v.items_.length := by omega
      simp [this]
    · have h4 : ¬ i = v.size_ := fun e => h3 e.symm
      simp [h3, h4]

theorem PushBack_WF [Inhabited T] [Zero T] (v : SimpleVector T) (item : T)
    (hwf : WF v) : WF (PushBack v item) := by
  refine ⟨?_, PushBack_length v item hwf⟩
  rw [PushBack_size, PushBack_capacity]
  obtain ⟨h1, h2⟩ := hwf
  split <;> omega

theorem contents_length (v : SimpleVector T) (hwf : WF v) : v.contents.length = v.size_ := by
  obtain ⟨h1, h2⟩ := hwf
  simp [contents]; omega

theorem contents_getElem? (v : SimpleVector T) (i : Nat) :
    v.contents[i]? = if i < v.size_ then v.items_[i]? else none := by
  simp [contents, List.getElem?_take]

theorem PushBack_contents [Inhabited T] [Zero T] (v : SimpleVector T) (item : T)
    (hwf : WF v) : (PushBack v item).contents = v.contents ++ [item] := by
  apply List.ext_getElem?
  intro i
  rw [contents_getElem?, PushBack_size, List.getElem?_append, contents_length v hwf,
    contents_getElem?]
  by_cases h : i < v.size_
  · have h2 : i < v.size_ + 1 := by omega
    have h3 : ¬ i = v.size_ := by omega
    rw [if_pos h2, if_pos h, if_pos h, PushBack_getElem? v item hwf i (by omega), if_neg h3]
  · by_cases h4 : i = v.size_
    · subst h4
      have h2 : v.size_ < v.size_ + 1 := by omega
      rw [if_pos h2, if_neg h, PushBack_getElem? v item hwf _ (le_refl _)]
      simp
    · have h2 : ¬ i < v.size_ + 1 := by omega
      have h5 : 1 ≤ i - v.size_ := by omega
      rw [if_neg h2, if_neg h]
      simp [List.getElem?_eq_none, h5]

end SimpleVector

namespace SimpleVector

variable {T : Type}

theorem subscript_eq (v : SimpleVector T) (i : Nat) (x : T) (hi : i < v.size_)
    (hx : v.items_[i]? = some x) : subscript v i = .ok x := by
  simp [subscript, GetSize, hi, ArrayPtr_read, hx]

theorem subscript_congr (v w : SimpleVector T) (i j : Nat) (hi : i < v.size_) (hj : j < w.size_)
    (h : v.items_[i]? = w.items_[j]?) : subscript v i = subscript w j := by
  simp [subscript, GetSize, hi, hj, ArrayPtr_read, h]

theorem subscript_ok (v : SimpleVector T) (hwf : WF v) (i : Nat) (hi : i < v.size_) :
    ∃ x, subscript v i = .ok x ∧ v.items_[i]? = some x := by
  obtain ⟨h1, h2⟩ := hwf
  have hlt : i < v.items_.length := by omega
  exact ⟨v.items_[i], subscript_eq v i _ hi (List.getElem?_eq_getElem hlt),
    List.getElem?_eq_getElem hlt⟩

/-! ## Insert -/

theorem InsertMove_spec_aux [Inhabited T] [Zero T] (v : SimpleVector T) (p : Nat) (value : T)
    (hwf : WF v) (hp : p ≤ v.size_) :
    ∃ r, InsertMove v p value = .ok (r, p) ∧ r.size_ = v.size_ + 1 ∧
      r.capacity_ = (if v.size_ = v.capacity_ then max 1 (2 * v.size_) else v.capacity_) ∧
      r.items_.length = r.capacity_ ∧
      ∀ i, i ≤ v.size_ →
        r.items_[i]? = if i < p then v.items_[i]? else if i = p then some value
          else v.items_[i - 1]? := by
  obtain ⟨h1, h2⟩ := hwf
  unfold InsertMove std_move
  rw [if_pos hp]
  refine ⟨_, rfl, rfl, ?_, ?_, ?_⟩
  · by_cases h : v.capacity_ = v.size_
    · have h' : v.size_ = v.capacity_ := h.symm
      by_cases h3 : v.size_ > 0
      · simp [h, h3]; omega
      · have : v.size_ = 0 := by omega
        simp [h, this]
    · have h' : ¬ v.size_ = v.capacity_ := fun e => h e.symm
      simp [h, h']
  · simp [std_fill_length, std_copy_length, ArrayPtr_new_length]
  · intro i hi
    generalize hc : (if v.capacity_ = v.size_ then (if v.size_ > 0 then v.size_ * 2 else 1)
      else v.capacity_) = cap
    have hcap : v.size_ + 1 ≤ cap := by
      rw [← hc]
      split
      · split <;> omega
      · omega
    simp only
    have hf : ¬ (v.size_ + 1 ≤ i ∧ i < cap ∧
        i < (std_copy v.items_ p v.size_
          ((std_copy v.items_ 0 p (ArrayPtr_new T cap) 0).set p value) (p + 1)).length) := by
      omega
    rw [std_fill_getElem?, if_neg hf, std_copy_getElem? _ _ _ _ _ _ hp (by omega)]
    simp only [List.length_set, std_copy_length, ArrayPtr_new_length]
    by_cases hlt : i < p
    · have hc2 : ¬ (p + 1 ≤ i ∧ i < p + 1 + (v.size_ - p) ∧ i < cap) := by omega
      have hne : ¬ p = i := by omega
      have hc1 : 0 ≤ i ∧ i < 0 + (p - 0) ∧ i < cap := by omega
      rw [if_neg hc2, if_pos hlt, List.getElem?_set, if_neg hne,
        std_copy_getElem? _ _ _ _ _ _ (Nat.zero_le _) (by omega)]
      simp only [ArrayPtr_new_length]
      rw [if_pos hc1]
      simp
    · rw [if_neg hlt]
      by_cases heq : i = p
      · subst heq
        have hc2 : ¬ (i + 1 ≤ i ∧ i < i + 1 + (v.size_ - i) ∧ i < cap) := by omega
        have hl : i < cap := by omega
        rw [if_neg hc2, if_pos rfl, List.getElem?_set]
        simp [std_copy_length, ArrayPtr_new_length, hl]
      · have hc2 : p + 1 ≤ i ∧ i < p + 1 + (v.size_ - p) ∧ i < cap := by omega
        have hidx : p + (i - (p + 1)) = i - 1 := by omega
        rw [if_pos hc2, if_neg heq, hidx]

theorem Insert_contents_aux (xs : List T) (ys : List T) (p n : Nat) (value : T)
    (hn : xs.length = n) (hp : p ≤ n) (hlen : ys.length = n + 1)
    (h : ∀ i, i ≤ n → ys[i]? = if i < p then xs[i]? else if i = p then some value
          else xs[i - 1]?) :
    ys = xs.take p ++ [value] ++ xs.drop p := by
  apply List.ext_getElem?
  intro i
  by_cases hi : i ≤ n
  · rw [h i hi, List.append_assoc, List.getElem?_append]
    have hl : (List.take p xs).length = p := by simp; omega
    rw [hl]
    by_cases hlt : i < p
    · rw [if_pos hlt, if_pos hlt, List.getElem?_take_of_lt hlt]
    · rw [if_neg hlt, if_neg hlt]
      by_cases heq : i = p
      · subst heq
        simp
      · rw [if_neg heq]
        obtain ⟨k, hk⟩ : ∃ k, i - p = k + 1 := ⟨i - p - 1, by omega⟩
        rw [hk]
        simp only [List.singleton_append, List.getElem?_cons_succ, List.getElem?_drop]
        congr 1
        omega
  · have h1 : ys.length ≤ i := by omega
    have h2 : (xs.take p ++ [value] ++ xs.drop p).length ≤ i := by
      simp; omega
    rw [List.getElem?_eq_none h1, List.getElem?_eq_none h2]

theorem InsertMove_spec_contents [Inhabited T] [Zero T] (v : SimpleVector T) (p : Nat) (value : T)
    (hwf : WF v) (hp : p ≤ v.size_) :
    ∃ r, InsertMove v p value = .ok (r, p) ∧ WF r ∧ r.size_ = v.size_ + 1 ∧
      r.capacity_ = (if v.size_ = v.capacity_ then max 1 (2 * v.size_) else v.capacity_) ∧
      r.contents = v.contents.take p ++ [value] ++ v.contents.drop p ∧
      subscript r p = .ok value := by
  obtain ⟨r, hr, hs, hc, hl, hg⟩ := InsertMove_spec_aux v p value hwf hp
  have hwf' : WF r := by
    refine ⟨?_, hl⟩
    rw [hs, hc]
    obtain ⟨h1, h2⟩ := hwf
    split <;> omega
  refine ⟨r, hr, hwf', hs, hc, ?_, ?_⟩
  · apply Insert_contents_aux v.contents r.contents p v.size_ value (contents_length v hwf) hp
      (by rw [contents_length r hwf', hs])
    intro i hi
    have hi' : i < r.size_ := by omega
    rw [contents_getElem?, if_pos hi', hg i hi]
    by_cases hlt : i < p
    · have : i < v.size_ := by omega
      rw [if_pos hlt, if_pos hlt, contents_getElem?, if_pos this]
    · rw [if_neg hlt, if_neg hlt]
      by_cases heq : i = p
      · rw [if_pos heq, if_pos heq]
      · have : i - 1 < v.size_ := by omega
        rw [if_neg heq, if_neg heq, contents_getElem?, if_pos this]
  · apply subscript_eq r p value (by omega)
    rw [hg p hp]
    simp

end SimpleVector

namespace SimpleVector

variable {T : Type}

/-! ## Erase -/

theorem Erase_spec_aux (v : SimpleVector T) (p : Nat) (hwf : WF v) (hp : p < v.size_) :
    ∃ r, Erase v p = .ok (r, p) ∧ r.size_ = v.size_ - 1 ∧ r.capacity_ = v.capacity_ ∧
      r.items_.length = r.capacity_ ∧
      ∀ i, r.items_[i]? =
        if p ≤ i ∧ i < v.size_ - 1 then v.items_[i + 1]? else v.items_[i]? := by
  obtain ⟨h1, h2⟩ := hwf
  have hne : v.IsEmpty = false := by
    simp [IsEmpty]; omega
  unfold Erase
  rw [hne]
  simp only [Bool.false_eq_true, if_false, if_pos hp]
  refine ⟨_, rfl, rfl, rfl, ?_, ?_⟩
  · simp [std_move_within_length, h2]
  · intro i
    simp only
    rw [std_move_within_getElem? _ _ _ _ _ (by omega) (by omega) (by omega)]
    by_cases h : p ≤ i ∧ i < v.size_ - 1
    · have h' : p ≤ i ∧ i < p + (v.size_ - (p + 1)) := by omega
      have hidx : p + 1 + (i - p) = i + 1 := by omega
      rw [if_pos h, if_pos h', hidx]
    · have h' : ¬ (p ≤ i ∧ i < p + (v.size_ - (p + 1))) := by omega
      rw [if_neg h, if_neg h']

theorem Erase_spec_contents (v : SimpleVector T) (p : Nat) (hwf : WF v) (hp : p < v.size_) :
    ∃ r, Erase v p = .ok (r, p) ∧ WF r ∧ r.size_ = v.size_ - 1 ∧
      r.capacity_ = v.capacity_ ∧ r.contents = v.contents.eraseIdx p := by
  obtain ⟨r, hr, hs, hc, hl, hg⟩ := Erase_spec_aux v p hwf hp
  have hwf' : WF r := by
    refine ⟨?_, hl⟩
    obtain ⟨h1, h2⟩ := hwf
    omega
  refine ⟨r, hr, hwf', hs, hc, ?_⟩
  apply List.ext_getElem?
  intro i
  rw [contents_getElem?, List.getElem?_eraseIdx, contents_getElem?, contents_getElem?, hg i, hs]
  by_cases h1 : i < v.size_ - 1
  · have h2 : i < v.size_ := by omega
    have h3 : i + 1 < v.size_ := by omega
    rw [if_pos h1, if_pos h2, if_pos h3]
    by_cases h4 : i < p
    · have h5 : ¬ (p ≤ i ∧ i < v.size_ - 1) := by omega
      rw [if_pos h4, if_neg h5]
    · have h5 : p ≤ i ∧ i < v.size_ - 1 := by omega
      rw [if_neg h4, if_pos h5]
  · have h3 : ¬ i + 1 < v.size_ := by omega
    have h4 : ¬ i < p := by omega
    rw [if_neg h1, if_neg h3, if_neg h4]

/-! ## Reserve and Resize -/

theorem Reserve_spec_aux [Inhabited T] [Zero T] (v : SimpleVector T) (n : Nat)
    (hwf : WF v) (hn : n > v.capacity_) :
    (Reserve v n).capacity_ = n ∧ (Reserve v n).size_ = v.size_ ∧
      (Reserve v n).items_.length = n ∧
      ∀ i, (Reserve v n).items_[i]? =
        if i < v.size_ then v.items_[i]? else if i < n then some 0 else none := by
  obtain ⟨h1, h2⟩ := hwf
  unfold Reserve
  rw [if_pos hn]
  refine ⟨rfl, rfl, ?_, ?_⟩
  · simp [std_fill_length, std_move, std_copy_length, ArrayPtr_new_length]
  · intro i
    simp only [std_move]
    rw [std_fill_getElem?, std_copy_length, ArrayPtr_new_length,
      std_copy_getElem? _ _ _ _ _ _ (Nat.zero_le _) (by omega), ArrayPtr_new_length,
      ArrayPtr_new_getElem?]
    by_cases hi : i < v.size_
    · have c1 : ¬ (v.size_ ≤ i ∧ i < n ∧ i < n) := by omega
      have c2 : 0 ≤ i ∧ i < 0 + (v.size_ - 0) ∧ i < n := by omega
      rw [if_neg c1, if_pos c2, if_pos hi]
      simp
    · by_cases hi2 : i < n
      · have c1 : v.size_ ≤ i ∧ i < n ∧ i < n := by omega
        rw [if_pos c1, if_neg hi, if_pos hi2]
      · have c1 : ¬ (v.size_ ≤ i ∧ i < n ∧ i < n) := by omega
        have c2 : ¬ (0 ≤ i ∧ i < 0 + (v.size_ - 0) ∧ i < n) := by omega
        rw [if_neg c1, if_neg c2, if_neg hi, if_neg hi2, if_neg hi2]

theorem Resize_grow_aux [Inhabited T] (v : SimpleVector T) (n : Nat)
    (hwf : WF v) (hn : v.size_ < n) (hsmall : n * 2 < 2 ^ SIZE_BITS) :
    (Resize v n).size_ = n ∧
      (Resize v n).capacity_ = (if n > v.capacity_ then 2 * n else v.capacity_) ∧
      (Resize v n).items_.length = (Resize v n).capacity_ ∧
      ∀ i, (Resize v n).items_[i]? =
        if i < v.size_ then v.items_[i]?
        else if i < (if n > v.capacity_ then 2 * n else v.capacity_) then some default
        else none := by
  obtain ⟨h1, h2⟩ := hwf
  have e1 : ¬ n = v.size_ := by omega
  have e2 : ¬ n < v.size_ := by omega
  have e3 : (if n > v.capacity_ then (n * 2) % 2 ^ SIZE_BITS else v.capacity_) =
      (if n > v.capacity_ then 2 * n else v.capacity_) := by
    rw [Nat.mod_eq_of_lt hsmall, Nat.mul_comm]
  unfold Resize
  rw [if_neg e1, if_neg e2]
  simp only [e3]
  generalize hc : (if n > v.capacity_ then 2 * n else v.capacity_) = cap
  have hcap : v.size_ ≤ cap := by
    rw [← hc]; split <;> omega
  refine ⟨by first | rfl | trivial, by first | rfl | trivial, ?_, ?_⟩
  · simp [std_fill_length, std_move, std_copy_length, ArrayPtr_new_length]
  · intro i
    simp only [std_move]
    rw [std_fill_getElem?, std_copy_length, ArrayPtr_new_length,
      std_copy_getElem? _ _ _ _ _ _ (Nat.zero_le _) (by omega), ArrayPtr_new_length,
      ArrayPtr_new_getElem?]
    by_cases hi : i < v.size_
    · have c1 : ¬ (v.size_ ≤ i ∧ i < cap ∧ i < cap) := by omega
      have c2 : 0 ≤ i ∧ i < 0 + (v.size_ - 0) ∧ i < cap := by omega
      rw [if_neg c1, if_pos c2, if_pos hi]
      simp
    · by_cases hi2 : i < cap
      · have c1 : v.size_ ≤ i ∧ i < cap ∧ i < cap := by omega
        rw [if_pos c1, if_neg hi, if_pos hi2]
      · have c1 : ¬ (v.size_ ≤ i ∧ i < cap ∧ i < cap) := by omega
        have c2 : ¬ (0 ≤ i ∧ i < 0 + (v.size_ - 0) ∧ i < cap) := by omega
        rw [if_neg c1, if_neg c2, if_neg hi, if_neg hi2]

end SimpleVector

/-! ## Claims -/

namespace SimpleVector

variable {T : Type}

/-- Supporting result for C1: on an array satisfying the representation invariant,
`PushBack(v)` with `v` held in an object outside the array's buffer (either
overload) gives size `old size + 1`, the element at index `old size` is `v`, every
element at an index below `old size` is unchanged, and the capacity is
`max 1 (2 * old size)` when `old size = old capacity` and the old capacity otherwise. -/
theorem PushBack_spec [Inhabited T] [Zero T] (v : SimpleVector T) (item : T) (hwf : WF v) :
    ∀ r ∈ [PushBack v item, PushBackMove v item],
      r.GetSize = v.GetSize + 1 ∧
      subscript r v.GetSize = .ok item ∧
      (∀ i, i < v.GetSize → ∃ x, subscript v i = .ok x ∧ subscript r i = .ok x) ∧
      r.GetCapacity =
        if v.GetSize = v.GetCapacity then max 1 (2 * v.GetSize) else v.GetCapacity := by
  intro r hr
  have hr' : r = PushBack v item := by
    simp only [List.mem_cons, List.mem_singleton, PushBackMove_eq, or_self, List.not_mem_nil,
      or_false] at hr
    exact hr
  subst hr'
  refine ⟨PushBack_size v item, ?_, ?_, PushBack_capacity v item⟩
  · apply subscript_eq
    · rw [PushBack_size]; exact Nat.lt_succ_self _
    · show (PushBack v item).items_[v.size_]? = some item
      rw [PushBack_getElem? v item hwf _ (le_refl _)]
      simp
  · intro i hi
    obtain ⟨x, hx, hx2⟩ := subscript_ok v hwf i hi
    refine ⟨x, hx, ?_⟩
    apply subscript_eq
    · rw [PushBack_size]; exact Nat.lt_succ_of_lt hi
    · have hne : ¬ i = v.size_ := Nat.ne_of_lt hi
      rw [PushBack_getElem? v item hwf i (Nat.le_of_lt hi), if_neg hne, hx2]

/-- Example for `PushBack_spec`: a full array `[4, 6]` grows to capacity 4 and
receives 9 at index 2. -/
theorem PushBack_spec_witness :
    WF ({ items_ := [4, 6], size_ := 2, capacity_ := 2 } : SimpleVector Nat) ∧
    (PushBack ({ items_ := [4, 6], size_ := 2, capacity_ := 2 } : SimpleVector Nat) 9).GetSize
      = 3 ∧
    (PushBack ({ items_ := [4, 6], size_ := 2, capacity_ := 2 } : SimpleVector Nat)
      9).GetCapacity = 4 :=
  ⟨by decide,
   (PushBack_spec { items_ := [4, 6], size_ := 2, capacity_ := 2 } 9 (by decide) _
      (List.mem_cons_self _ _)).1,
   (PushBack_spec { items_ := [4, 6], size_ := 2, capacity_ := 2 } 9 (by decide) _
      (List.mem_cons_self _ _)).2.2.2⟩

/-- Supporting result for C2: for a position `p ≤ size`, `Insert(begin() + p, v)`
with an rvalue argument succeeds, returns the iterator at index `p`, which refers
to `v`, increases the size by one, and the logical contents become the first `p`
old elements, then `v`, then the remaining old elements.  Inserting `v` at
`begin()` and then `w` at `end()` gives `[v] ++ xs ++ [w]`. -/
theorem InsertMove_spec [Inhabited T] [Zero T] (v : SimpleVector T) (p : Nat) (value w : T)
    (hwf : WF v) (hp : p ≤ v.GetSize) :
    (∃ r, InsertMove v p value = .ok (r, p) ∧
        r.contents = v.contents.take p ++ [value] ++ v.contents.drop p ∧
        r.GetSize = v.GetSize + 1 ∧
        subscript r p = .ok value) ∧
    (∃ r1 r2 it, InsertMove v 0 value = .ok (r1, 0) ∧
        InsertMove r1 r1.GetSize w = .ok (r2, it) ∧
        r2.contents = [value] ++ v.contents ++ [w]) := by
  constructor
  · obtain ⟨r, hr, _, hs, _, hc, hsub⟩ := InsertMove_spec_contents v p value hwf hp
    exact ⟨r, hr, hc, hs, hsub⟩
  · obtain ⟨r1, hr1, hwf1, hs1, _, hc1, _⟩ :=
      InsertMove_spec_contents v 0 value hwf (Nat.zero_le _)
    obtain ⟨r2, hr2, _, _, _, hc2, _⟩ :=
      InsertMove_spec_contents r1 r1.size_ w hwf1 (le_refl _)
    refine ⟨r1, r2, r1.size_, hr1, hr2, ?_⟩
    rw [hc2, hc1]
    have hl : (List.take 0 v.contents ++ [value] ++ List.drop 0 v.contents).length = r1.size_ := by
      rw [← hc1]; exact contents_length r1 hwf1
    rw [← hl, List.take_length, List.drop_length]
    simp

/-- Example for `InsertMove_spec`: inserting 7 in front of `[1, 2]` (capacity 3) and
8 at the end. -/
theorem InsertMove_spec_example :
    WF ({ items_ := [1, 2, 0], size_ := 2, capacity_ := 3 } : SimpleVector Nat) ∧
    (∃ r1 r2 it,
      InsertMove ({ items_ := [1, 2, 0], size_ := 2, capacity_ := 3 } : SimpleVector Nat) 0 7
        = .ok (r1, 0) ∧
      InsertMove r1 r1.GetSize 8 = .ok (r2, it) ∧
      r2.contents = [7] ++ [1, 2] ++ [8]) :=
  ⟨by decide,
   (InsertMove_spec { items_ := [1, 2, 0], size_ := 2, capacity_ := 3 } 1 7 8 (by decide)
      (by decide)).2⟩

/-- C2 at the failing input: on `[1, 2]` the call `Insert(begin(), x)` with an lvalue
`x = 7` selects the `const Type&` overload, which cannot be instantiated, while the
same call with an rvalue runs the `Type&&` overload and gives `[7, 1, 2]` and the
iterator at index 0. -/
theorem Insert_lvalue_overload_ill_formed :
    Insert ({ items_ := [1, 2], size_ := 2, capacity_ := 2 } : SimpleVector Nat) 0 7
      = .error .ill_formed ∧
    InsertMove ({ items_ := [1, 2], size_ := 2, capacity_ := 2 } : SimpleVector Nat) 0 7
      = .ok ({ items_ := [7, 1, 2, 0], size_ := 3, capacity_ := 4 }, 0) ∧
    (∃ r, InsertMove ({ items_ := [1, 2], size_ := 2, capacity_ := 2 } : SimpleVector Nat) 0 7
      = .ok (r, 0) ∧ r.contents = [7, 1, 2]) :=
  ⟨rfl, rfl, _, rfl, rfl⟩

/-- C3: for a position `p < size`, `Erase(begin() + p)` succeeds and returns the
iterator at index `p`; the logical contents are the old ones with index `p`
removed (indices below `p` unchanged, later ones moved one slot left), the size
drops by one, the capacity is unchanged, and the returned iterator refers to the
element that followed the erased one, or is `end()` when `p` was the last index. -/
theorem Erase_spec (v : SimpleVector T) (p : Nat) (hwf : WF v) (hp : p < v.GetSize) :
    ∃ r, Erase v p = .ok (r, p) ∧
      r.contents = v.contents.eraseIdx p ∧
      (∀ i, i < p → r.contents[i]? = v.contents[i]?) ∧
      (∀ i, p ≤ i → r.contents[i]? = v.contents[i + 1]?) ∧
      r.GetSize + 1 = v.GetSize ∧
      r.GetCapacity = v.GetCapacity ∧
      (p + 1 < v.GetSize → ∃ x, subscript v (p + 1) = .ok x ∧ subscript r p = .ok x) ∧
      (p + 1 = v.GetSize → p = r.GetSize) := by
  obtain ⟨r, hr, hwf', hs, hc, hcont⟩ := Erase_spec_contents v p hwf hp
  have hp' : p < v.size_ := hp
  refine ⟨r, hr, hcont, ?_, ?_, ?_, hc, ?_, ?_⟩
  · intro i hi
    rw [hcont, List.getElem?_eraseIdx, if_pos hi]
  · intro i hi
    have : ¬ i < p := Nat.not_lt.mpr hi
    rw [hcont, List.getElem?_eraseIdx, if_neg this]
  · show r.size_ + 1 = v.size_
    omega
  · intro h
    have h' : p + 1 < v.size_ := h
    obtain ⟨x, hx, hx2⟩ := subscript_ok v hwf (p + 1) h
    refine ⟨x, hx, ?_⟩
    have hpr : p < r.size_ := by omega
    obtain ⟨y, hy, hy2⟩ := subscript_ok r hwf' p hpr
    have e1 : r.contents[p]? = some y := by rw [contents_getElem?, if_pos hpr, hy2]
    have e2 : v.contents[p + 1]? = some x := by rw [contents_getElem?, if_pos h', hx2]
    rw [hcont, List.getElem?_eraseIdx, if_neg (Nat.lt_irrefl p), e2] at e1
    rw [hy]
    cases e1
    rfl
  · intro h
    show p = r.size_
    have h' : p + 1 = v.size_ := h
    omega

/-- Witness for C3: erasing index 1 of `[1, 2, 3]`. -/
theorem Erase_spec_witness :
    WF ({ items_ := [1, 2, 3, 0], size_ := 3, capacity_ := 4 } : SimpleVector Nat) ∧
    (∃ r, Erase ({ items_ := [1, 2, 3, 0], size_ := 3, capacity_ := 4 } : SimpleVector Nat) 1
        = .ok (r, 1) ∧ r.contents = [1, 3]) :=
  ⟨by decide,
   (Erase_spec { items_ := [1, 2, 3, 0], size_ := 3, capacity_ := 4 } 1 (by decide)
      (by decide)).imp (fun _ h => ⟨h.1, h.2.1⟩)⟩

/-- C4: `At(i)` fails with `out_of_range` exactly when `i ≥ Size()`; for `i < Size()`
on an array satisfying the representation invariant it succeeds with the same
element as `operator[](i)`. -/
theorem At_spec (v : SimpleVector T) (i : Nat) :
    (At v i = .error .out_of_range ↔ i ≥ v.GetSize) ∧
    (WF v → i < v.GetSize → ∃ x, At v i = .ok x ∧ subscript v i = .ok x) := by
  constructor
  · unfold At
    by_cases h : i ≥ v.GetSize
    · simp [h]
    · simp only [h, if_false, iff_false]
      unfold ArrayPtr_read
      split <;> simp
  · intro hwf hi
    obtain ⟨x, hx, hx2⟩ := subscript_ok v hwf i hi
    refine ⟨x, ?_, hx⟩
    have : ¬ i ≥ v.GetSize := Nat.not_le.mpr hi
    simp [At, this, ArrayPtr_read, hx2]

/-- Witness for C4: index 1 of `[5, 6]`. -/
theorem At_spec_witness :
    WF ({ items_ := [5, 6], size_ := 2, capacity_ := 2 } : SimpleVector Nat) ∧
    (∃ x, At ({ items_ := [5, 6], size_ := 2, capacity_ := 2 } : SimpleVector Nat) 1 = .ok x ∧
      subscript ({ items_ := [5, 6], size_ := 2, capacity_ := 2 } : SimpleVector Nat) 1 = .ok x) :=
  ⟨by decide,
   (At_spec { items_ := [5, 6], size_ := 2, capacity_ := 2 } 1).2 (by decide) (by decide)⟩

end SimpleVector

namespace SimpleVector

variable {T : Type}

/-- Supporting result for C5: when `2 * n` fits in `size_t`, `Resize(n)` on an array
satisfying the representation invariant gives size `n`, keeps every element
below `min (old size) n`, puts the default value at every index in
`[old size, n)`, and the capacity is `2 * n` when `n` exceeds the old capacity and
the old capacity otherwise. -/
theorem Resize_spec_in_range [Inhabited T] (v : SimpleVector T) (n : Nat) (hwf : WF v)
    (hsmall : n * 2 < 2 ^ SIZE_BITS) :
    (Resize v n).GetSize = n ∧
    (∀ i, i < min v.GetSize n →
      ∃ x, subscript v i = .ok x ∧ subscript (Resize v n) i = .ok x) ∧
    (∀ i, v.GetSize ≤ i → i < n → subscript (Resize v n) i = .ok default) ∧
    (Resize v n).GetCapacity = (if n > v.GetCapacity then 2 * n else v.GetCapacity) := by
  have h12 := hwf
  obtain ⟨h1, h2⟩ := h12
  by_cases e1 : n = v.size_
  · have hr : Resize v n = v := by unfold Resize; rw [if_pos e1]
    rw [hr]
    have hc : ¬ n > v.GetCapacity := by show ¬ n > v.capacity_; omega
    refine ⟨e1.symm, ?_, ?_, by rw [if_neg hc]⟩
    · intro i hi
      have hi' : i < v.size_ := lt_of_lt_of_le hi (min_le_left _ _)
      obtain ⟨x, hx, _⟩ := subscript_ok v hwf i hi'
      exact ⟨x, hx, hx⟩
    · intro i hi hi2
      have : v.size_ ≤ i := hi
      omega
  · by_cases e2 : n < v.size_
    · have hr : Resize v n = { v with size_ := n } := by
        unfold Resize; rw [if_neg e1, if_pos e2]
      rw [hr]
      have hc : ¬ n > v.GetCapacity := by show ¬ n > v.capacity_; omega
      refine ⟨rfl, ?_, ?_, by rw [if_neg hc]; rfl⟩
      · intro i hi
        have hi1 : i < v.size_ := lt_of_lt_of_le hi (min_le_left _ _)
        have hi2 : i < n := lt_of_lt_of_le hi (min_le_right _ _)
        obtain ⟨x, hx, hx2⟩ := subscript_ok v hwf i hi1
        exact ⟨x, hx, subscript_eq _ i x hi2 hx2⟩
      · intro i hi hi2
        have : v.size_ ≤ i := hi
        omega
    · have hn : v.size_ < n := by omega
      obtain ⟨hs, hc, _, hg⟩ := Resize_grow_aux v n hwf hn hsmall
      refine ⟨hs, ?_, ?_, hc⟩
      · intro i hi
        have hi1 : i < v.size_ := lt_of_lt_of_le hi (min_le_left _ _)
        have hi2 : i < n := lt_of_lt_of_le hi (min_le_right _ _)
        obtain ⟨x, hx, hx2⟩ := subscript_ok v hwf i hi1
        refine ⟨x, hx, subscript_eq _ i x (by rw [hs]; exact hi2) ?_⟩
        rw [hg i, if_pos hi1, hx2]
      · intro i hi hi2
        have hi' : ¬ i < v.size_ := Nat.not_lt.mpr hi
        have hcap : i < (if n > v.capacity_ then 2 * n else v.capacity_) := by
          split <;> omega
        apply subscript_eq _ i default (by rw [hs]; exact hi2)
        rw [hg i, if_neg hi', if_pos hcap]

/-- C5 at the failing input: on a default-constructed array `Resize(2 ^ 63)` sets
the size to `2 ^ 63` while `new_size * 2` wraps to 0, so the capacity is 0 rather
than `2 * n`, no buffer is owned, the size exceeds the capacity, and index 0 holds
no element. -/
theorem Resize_wraps_at_half_range :
    (Resize (empty : SimpleVector Nat) (2 ^ 63)).GetSize = 2 ^ 63 ∧
    (Resize (empty : SimpleVector Nat) (2 ^ 63)).GetCapacity = 0 ∧
    (Resize (empty : SimpleVector Nat) (2 ^ 63)).GetCapacity ≠ 2 * 2 ^ 63 ∧
    (Resize (empty : SimpleVector Nat) (2 ^ 63)).items_ = [] ∧
    ¬ WF (Resize (empty : SimpleVector Nat) (2 ^ 63)) ∧
    subscript (Resize (empty : SimpleVector Nat) (2 ^ 63)) 0 = .error .out_of_bounds :=
  ⟨by decide, by decide, by decide, by decide, by decide, rfl⟩

/-- C6: on an array satisfying the representation invariant, `Reserve(n)` with
`n ≤ Capacity()` returns the state unchanged; with `n > Capacity()` the capacity
becomes `n`, the size is unchanged and the elements at indices below the size are
preserved in order.  The capacity never decreases. -/
theorem Reserve_spec [Inhabited T] [Zero T] (v : SimpleVector T) (n : Nat) (hwf : WF v) :
    (n ≤ v.GetCapacity → Reserve v n = v) ∧
    (n > v.GetCapacity →
      (Reserve v n).GetCapacity = n ∧ (Reserve v n).GetSize = v.GetSize ∧
      (Reserve v n).contents = v.contents ∧
      ∀ i, i < v.GetSize → ∃ x, subscript v i = .ok x ∧ subscript (Reserve v n) i = .ok x) ∧
    v.GetCapacity ≤ (Reserve v n).GetCapacity := by
  refine ⟨?_, ?_, ?_⟩
  · intro h
    have : ¬ n > v.capacity_ := Nat.not_lt.mpr h
    unfold Reserve
    rw [if_neg this]
  · intro h
    obtain ⟨hc, hs, _, hg⟩ := Reserve_spec_aux v n hwf h
    refine ⟨hc, hs, ?_, ?_⟩
    · apply List.ext_getElem?
      intro i
      rw [contents_getElem?, contents_getElem?, hs, hg i]
      by_cases hi : i < v.size_
      · rw [if_pos hi, if_pos hi, if_pos hi]
      · rw [if_neg hi, if_neg hi]
    · intro i hi
      obtain ⟨x, hx, hx2⟩ := subscript_ok v hwf i hi
      have hi' : i < v.size_ := hi
      refine ⟨x, hx, subscript_eq _ i x (by rw [hs]; exact hi) ?_⟩
      rw [hg i, if_pos hi', hx2]
  · by_cases h : n > v.capacity_
    · obtain ⟨hc, _⟩ := Reserve_spec_aux v n hwf h
      show v.capacity_ ≤ (Reserve v n).capacity_
      rw [hc]
      exact Nat.le_of_lt h
    · have hr : Reserve v n = v := by unfold Reserve; rw [if_neg h]
      rw [hr]

/-- Witness for C6: reserving 5 slots for `[1, 2]` held in a buffer of 3. -/
theorem Reserve_spec_witness :
    WF ({ items_ := [1, 2, 9], size_ := 2, capacity_ := 3 } : SimpleVector Nat) ∧
    ({ items_ := [1, 2, 9], size_ := 2, capacity_ := 3 } : SimpleVector Nat).GetCapacity ≤
      (Reserve ({ items_ := [1, 2, 9], size_ := 2, capacity_ := 3 } : SimpleVector Nat)
        5).GetCapacity :=
  ⟨by decide, (Reserve_spec { items_ := [1, 2, 9], size_ := 2, capacity_ := 3 } 5
    (by decide)).2.2⟩

end SimpleVector

/-! ## Repeated PushBack and front erasure -/

namespace SimpleVector

variable {T : Type}

theorem pushMany_inv [Inhabited T] [Zero T] (f : Nat → T) (k : Nat) :
    WF (pushMany f k) ∧ (pushMany f k).size_ = k ∧
      (pushMany f k).contents = (List.range k).map f ∧
      ((k = 0 ∧ (pushMany f k).capacity_ = 0) ∨
        ∃ e, (pushMany f k).capacity_ = 2 ^ e ∧ k ≤ 2 ^ e ∧ (e = 0 ∨ 2 ^ (e - 1) < k)) := by
  induction k with
  | zero =>
    refine ⟨by simp [pushMany, empty, WF], rfl, rfl, Or.inl ⟨rfl, rfl⟩⟩
  | succ k ih =>
    obtain ⟨hwf, hs, hc, hcap⟩ := ih
    refine ⟨PushBack_WF _ _ hwf, ?_, ?_, Or.inr ?_⟩
    · show (PushBack (pushMany f k) (f k)).size_ = k + 1
      rw [PushBack_size, hs]
    · show (PushBack (pushMany f k) (f k)).contents = _
      rw [PushBack_contents _ _ hwf, hc, List.range_succ, List.map_append]
      rfl
    · show ∃ e, (PushBack (pushMany f k) (f k)).capacity_ = 2 ^ e ∧ _
      rw [PushBack_capacity, hs]
      rcases hcap with ⟨hk0, hc0⟩ | ⟨e, he, hle, hmin⟩
      · refine ⟨0, ?_, by omega, Or.inl rfl⟩
        rw [hc0, hk0]
        rfl
      · rw [he]
        by_cases hfull : k = 2 ^ e
        · have hpos : 0 < 2 ^ e := Nat.two_pow_pos e
          refine ⟨e + 1, ?_, ?_, Or.inr ?_⟩
          · rw [if_pos hfull, pow_succ, hfull]
            generalize 2 ^ e = c at hpos
            omega
          · rw [pow_succ, hfull]
            generalize 2 ^ e = c at hpos
            omega
          · simp only [Nat.add_sub_cancel]
            rw [hfull]
            exact Nat.lt_succ_self _
        · refine ⟨e, by rw [if_neg hfull], by omega, ?_⟩
          rcases hmin with h0 | hlt
          · exact Or.inl h0
          · exact Or.inr (by omega)

theorem eraseFront_spec (n : Nat) (v : SimpleVector T) (hwf : WF v) (hs : v.size_ = n) :
    ∃ r, eraseFront n v = .ok (v.contents, r) ∧ r.size_ = 0 := by
  induction n generalizing v with
  | zero =>
    refine ⟨v, ?_, hs⟩
    simp [eraseFront, contents, hs]
  | succ n ih =>
    have hpos : 0 < v.size_ := by omega
    obtain ⟨x, hx, hx2⟩ := subscript_ok v hwf 0 hpos
    obtain ⟨v1, hv1, hwf1, hs1, _, hc1⟩ := Erase_spec_contents v 0 hwf hpos
    obtain ⟨r, hr, hr0⟩ := ih v1 hwf1 (by omega)
    refine ⟨r, ?_, hr0⟩
    have hcv : v.contents = x :: v1.contents := by
      have h0 : v.contents[0]? = some x := by rw [contents_getElem?, if_pos hpos, hx2]
      rw [hc1]
      cases hcon : v.contents with
      | nil => rw [hcon] at h0; simp at h0
      | cons a as =>
        rw [hcon] at h0
        simp only [List.getElem?_cons_zero, Option.some.injEq] at h0
        rw [h0]
        rfl
    unfold eraseFront
    rw [hx, hv1]
    simp only
    rw [hr, hcv]

/-- C7: after `k ≥ 1` consecutive `PushBack` calls on a default-constructed array
the size is `k` and the capacity is the smallest power of two that is at least
`k`; the capacity starts at 1 and each further push either keeps it or doubles
it. -/
theorem pushMany_capacity [Inhabited T] [Zero T] (f : Nat → T) (k : Nat) (hk : 1 ≤ k) :
    (pushMany f k).GetSize = k ∧
    (∃ e, (pushMany f k).GetCapacity = 2 ^ e ∧ k ≤ 2 ^ e ∧ ∀ m, k ≤ 2 ^ m → 2 ^ e ≤ 2 ^ m) ∧
    (pushMany f 1).GetCapacity = 1 ∧
    ((pushMany f (k + 1)).GetCapacity = (pushMany f k).GetCapacity ∨
      (pushMany f (k + 1)).GetCapacity = 2 * (pushMany f k).GetCapacity) := by
  obtain ⟨hwf, hs, _, hcap⟩ := pushMany_inv f k
  refine ⟨hs, ?_, ?_, ?_⟩
  · rcases hcap with ⟨hk0, _⟩ | ⟨e, he, hle, hmin⟩
    · omega
    · refine ⟨e, he, hle, ?_⟩
      intro m hm
      rcases hmin with h0 | hlt
      · rw [h0]
        exact Nat.one_le_two_pow
      · have h1 : 2 ^ (e - 1) < 2 ^ m := lt_of_lt_of_le hlt hm
        have h2 : e - 1 < m := (Nat.pow_lt_pow_iff_right (by decide)).mp h1
        exact Nat.pow_le_pow_right (by decide) (by omega)
  · show (PushBack (pushMany f 0) (f 0)).capacity_ = 1
    rw [PushBack_capacity]
    rfl
  · show (PushBack (pushMany f k) (f k)).capacity_ = (pushMany f k).capacity_ ∨
      (PushBack (pushMany f k) (f k)).capacity_ = 2 * (pushMany f k).capacity_
    rw [PushBack_capacity, hs]
    by_cases hfull : k = (pushMany f k).capacity_
    · right
      rw [if_pos hfull, ← hfull]
      omega
    · left
      rw [if_neg hfull]

/-- Witness for C7: five pushes give size 5. -/
theorem pushMany_capacity_witness :
    1 ≤ 5 ∧ (pushMany (fun i : Nat => i) 5).GetSize = 5 :=
  ⟨by decide, (pushMany_capacity (fun i : Nat => i) 5 (by decide)).1⟩

/-- C8: pushing `0, 1, ..., n - 1` with `PushBack` onto a default-constructed array
and then running `n` rounds of "read `v[0]`, `Erase(begin())`" succeeds, reads
exactly `0, 1, ..., n - 1` in order, and leaves `Size() = 0`. -/
theorem push_then_eraseFront (n : Nat) :
    ∃ r, eraseFront n (pushMany (fun i : Nat => i) n) = .ok (List.range n, r) ∧
      r.GetSize = 0 := by
  obtain ⟨hwf, hs, hc, _⟩ := pushMany_inv (fun i : Nat => i) n
  obtain ⟨r, hr, hr0⟩ := eraseFront_spec n _ hwf hs
  refine ⟨r, ?_, hr0⟩
  rw [hr, hc]
  simp

end SimpleVector

/-! ## Comparison operators -/

theorem LexLess_cons_same {T : Type} [LT T] (a : T) (xs ys : List T) :
    LexLess (a :: xs) (a :: ys) ↔ LexLess xs ys := by
  constructor
  · rintro (⟨hlen, hpre⟩ | ⟨k, x, y, hx, hy, hne, hpre, hlt⟩)
    · left
      refine ⟨by simpa using hlen, ?_⟩
      intro i hi
      have := hpre (i + 1) (by simp; omega)
      simpa using this
    · cases k with
      | zero =>
        simp only [List.getElem?_cons_zero, Option.some.injEq] at hx hy
        exact absurd (hx.symm.trans hy) hne
      | succ k =>
        right
        refine ⟨k, x, y, by simpa using hx, by simpa using hy, hne, ?_, hlt⟩
        intro i hi
        have := hpre (i + 1) (by omega)
        simpa using this
  · rintro (⟨hlen, hpre⟩ | ⟨k, x, y, hx, hy, hne, hpre, hlt⟩)
    · left
      refine ⟨by simpa using hlen, ?_⟩
      intro i hi
      cases i with
      | zero => simp
      | succ i =>
        have := hpre i (by simp at hi; omega)
        simpa using this
    · right
      refine ⟨k + 1, x, y, by simpa using hx, by simpa using hy, hne, ?_, hlt⟩
      intro i hi
      cases i with
      | zero => simp
      | succ i =>
        have := hpre i (by omega)
        simpa using this

theorem std_lexicographical_compare_iff {T : Type} [LinearOrder T] (xs ys : List T) :
    std_lexicographical_compare xs ys = true ↔ LexLess xs ys := by
  induction xs generalizing ys with
  | nil =>
    cases ys with
    | nil =>
      simp only [std_lexicographical_compare, Bool.false_eq_true, false_iff]
      rintro (⟨hlen, _⟩ | ⟨k, x, y, hx, _⟩)
      · simp at hlen
      · simp at hx
    | cons y ys =>
      simp only [std_lexicographical_compare, true_iff]
      left
      refine ⟨by simp, ?_⟩
      intro i hi
      simp at hi
  | cons x xs ih =>
    cases ys with
    | nil =>
      simp only [std_lexicographical_compare, Bool.false_eq_true, false_iff]
      rintro (⟨hlen, _⟩ | ⟨k, x', y', _, hy, _⟩)
      · simp at hlen
      · simp at hy
    | cons y ys =>
      unfold std_lexicographical_compare
      by_cases hxy : x < y
      · rw [if_pos hxy]
        simp only [true_iff]
        right
        refine ⟨0, x, y, by simp, by simp, ne_of_lt hxy, ?_, hxy⟩
        intro i hi
        omega
      · rw [if_neg hxy]
        by_cases hyx : y < x
        · rw [if_pos hyx]
          simp only [Bool.false_eq_true, false_iff]
          rintro (⟨_, hpre⟩ | ⟨k, x', y', hx, hy, hne, hpre, hlt⟩)
          · have := hpre 0 (by simp)
            simp only [List.getElem?_cons_zero, Option.some.injEq] at this
            rw [this] at hyx
            exact lt_irrefl _ hyx
          · cases k with
            | zero =>
              simp only [List.getElem?_cons_zero, Option.some.injEq] at hx hy
              rw [← hx, ← hy] at hlt
              exact hxy hlt
            | succ k =>
              have := hpre 0 (by omega)
              simp only [List.getElem?_cons_zero, Option.some.injEq] at this
              rw [this] at hyx
              exact lt_irrefl _ hyx
        · rw [if_neg hyx]
          have heq : x = y := le_antisymm (not_lt.mp hyx) (not_lt.mp hxy)
          subst heq
          rw [ih ys, LexLess_cons_same]

theorem std_equal_iff {T : Type} [DecidableEq T] (xs ys : List T) :
    std_equal xs ys = true ↔ xs = ys := by
  induction xs generalizing ys with
  | nil =>
    cases ys with
    | nil => simp [std_equal]
    | cons y ys => simp [std_equal]
  | cons x xs ih =>
    cases ys with
    | nil => simp [std_equal]
    | cons y ys =>
      unfold std_equal
      by_cases h : x = y
      · rw [if_pos h, ih ys]
        simp [h]
      · rw [if_neg h]
        simp [h]

namespace SimpleVector

variable {T : Type}

theorem contents_eq_iff (a b : SimpleVector T) (ha : WF a) (hb : WF b) :
    a.contents = b.contents ↔
      a.size_ = b.size_ ∧ ∀ i, i < a.size_ → subscript a i = subscript b i := by
  constructor
  · intro h
    have hs : a.size_ = b.size_ := by
      rw [← contents_length a ha, ← contents_length b hb, h]
    refine ⟨hs, ?_⟩
    intro i hi
    have hi' : i < b.size_ := by omega
    apply subscript_congr a b i i hi hi'
    have := congrArg (fun l => l[i]?) h
    simp only [contents_getElem?, if_pos hi, if_pos hi'] at this
    exact this
  · rintro ⟨hs, hel⟩
    apply List.ext_getElem?
    intro i
    rw [contents_getElem?, contents_getElem?, ← hs]
    by_cases hi : i < a.size_
    · rw [if_pos hi, if_pos hi]
      have hi' : i < b.size_ := by omega
      obtain ⟨x, hx, hx2⟩ := subscript_ok a ha i hi
      obtain ⟨y, hy, hy2⟩ := subscript_ok b hb i hi'
      have := hel i hi
      rw [hx, hy] at this
      cases this
      rw [hx2, hy2]
    · rw [if_neg hi, if_neg hi]

/-- C9: `a < b` holds exactly when the logical contents of `a` are lexicographically
less than those of `b` (proper prefix, or smaller element at the first differing
index); `[1, 2] < [1, 2, 3]` and `[1, 2, 3] < [1, 3]`; and `a > b` is `b < a`. -/
theorem lt_spec [LinearOrder T] (a b : SimpleVector T) :
    (lt a b = true ↔ LexLess a.contents b.contents) ∧
    (gt a b = lt b a) ∧
    lt ({ items_ := [1, 2], size_ := 2, capacity_ := 2 } : SimpleVector Nat)
      { items_ := [1, 2, 3], size_ := 3, capacity_ := 3 } = true ∧
    lt ({ items_ := [1, 2, 3], size_ := 3, capacity_ := 3 } : SimpleVector Nat)
      { items_ := [1, 3], size_ := 2, capacity_ := 2 } = true :=
  ⟨std_lexicographical_compare_iff _ _, rfl, by decide, by decide⟩

/-- C10: on arrays satisfying the representation invariant, `a == b` holds exactly
when the sizes agree and `a[i]` equals `b[i]` for every `i < Size()`; replacing
either array by one with the same size and the same elements below the size
(whatever its capacity and unused slots) does not change the result; and `a != b`
is the negation of `a == b`. -/
theorem eq_spec [DecidableEq T] (a b : SimpleVector T) (ha : WF a) (hb : WF b) :
    (eq a b = true ↔
      a.GetSize = b.GetSize ∧ ∀ i, i < a.GetSize → subscript a i = subscript b i) ∧
    (∀ a1 b1 : SimpleVector T, WF a1 → WF b1 →
      a1.GetSize = a.GetSize → (∀ i, i < a.GetSize → subscript a1 i = subscript a i) →
      b1.GetSize = b.GetSize → (∀ i, i < b.GetSize → subscript b1 i = subscript b i) →
      eq a1 b1 = eq a b) ∧
    ne a b = !eq a b := by
  refine ⟨?_, ?_, rfl⟩
  · unfold eq
    rw [std_equal_iff]
    exact contents_eq_iff a b ha hb
  · intro a1 b1 ha1 hb1 hsa hea hsb heb
    have e1 : a1.contents = a.contents :=
      (contents_eq_iff a1 a ha1 ha).mpr ⟨hsa, fun i hi => hea i (by
        have : a1.size_ = a.size_ := hsa
        show i < a.size_
        omega)⟩
    have e2 : b1.contents = b.contents :=
      (contents_eq_iff b1 b hb1 hb).mpr ⟨hsb, fun i hi => heb i (by
        have : b1.size_ = b.size_ := hsb
        show i < b.size_
        omega)⟩
    unfold eq
    rw [e1, e2]

/-- Witness for C10: `[1, 2]` stored with capacity 2 and with capacity 4 and a
stale slot compare equal. -/
theorem eq_spec_witness :
    WF ({ items_ := [1, 2], size_ := 2, capacity_ := 2 } : SimpleVector Nat) ∧
    WF ({ items_ := [1, 2, 7, 0], size_ := 2, capacity_ := 4 } : SimpleVector Nat) ∧
    ne ({ items_ := [1, 2], size_ := 2, capacity_ := 2 } : SimpleVector Nat)
        { items_ := [1, 2, 7, 0], size_ := 2, capacity_ := 4 } =
      !eq ({ items_ := [1, 2], size_ := 2, capacity_ := 2 } : SimpleVector Nat)
        { items_ := [1, 2, 7, 0], size_ := 2, capacity_ := 4 } :=
  ⟨by decide, by decide,
   (eq_spec { items_ := [1, 2], size_ := 2, capacity_ := 2 }
      { items_ := [1, 2, 7, 0], size_ := 2, capacity_ := 4 } (by decide) (by decide)).2.2⟩

end SimpleVector

/-! ## Copy, move and assignment -/

namespace SimpleVector

variable {T : Type}

theorem ctor_copy_getElem? [Inhabited T] (v : SimpleVector T) (hwf : WF v) (i : Nat) :
    (ctor_copy v).items_[i]? = if i < v.size_ then v.items_[i]? else none := by
  obtain ⟨h1, h2⟩ := hwf
  unfold ctor_copy
  simp only
  rw [std_copy_getElem? _ _ _ _ _ _ (Nat.zero_le _) (by omega), ArrayPtr_new_length,
    ArrayPtr_new_getElem?]
  by_cases hi : i < v.size_
  · have c : 0 ≤ i ∧ i < 0 + (v.size_ - 0) ∧ i < v.size_ := by omega
    rw [if_pos c, if_pos hi]
    simp
  · have c : ¬ (0 ≤ i ∧ i < 0 + (v.size_ - 0) ∧ i < v.size_) := by omega
    rw [if_neg c, if_neg hi, if_neg hi]

theorem ctor_copy_WF [Inhabited T] (v : SimpleVector T) : WF (ctor_copy v) := by
  refine ⟨le_refl _, ?_⟩
  simp [ctor_copy, std_copy_length, ArrayPtr_new_length]

theorem ctor_copy_contents [Inhabited T] (v : SimpleVector T) (hwf : WF v) :
    (ctor_copy v).contents = v.contents := by
  apply List.ext_getElem?
  intro i
  rw [contents_getElem?, contents_getElem?, ctor_copy_getElem? v hwf i]
  show (if i < v.size_ then (if i < v.size_ then v.items_[i]? else none) else none) = _
  by_cases hi : i < v.size_
  · simp only [hi, if_true]
  · simp only [hi, if_false]

theorem ctor_move_fst [Inhabited T] (v : SimpleVector T) : (ctor_move v).1 = ctor_copy v := rfl

/-- C12: move-constructing `m` from a source with logical contents `xs` gives `m`
with `Size() = |xs|` and logical contents `xs`, and the source has `Size() = 0`
afterwards. -/
theorem ctor_move_spec [Inhabited T] (s : SimpleVector T) (hwf : WF s) :
    (ctor_move s).1.GetSize = s.contents.length ∧
    (ctor_move s).1.contents = s.contents ∧
    (ctor_move s).2.GetSize = 0 ∧
    (ctor_move s).2.IsEmpty = true := by
  refine ⟨?_, ?_, rfl, rfl⟩
  · rw [contents_length s hwf]
    rfl
  · rw [ctor_move_fst]
    exact ctor_copy_contents s hwf

/-- Witness for C12: moving from `[1, 2]` held in a buffer of 3. -/
theorem ctor_move_spec_witness :
    WF ({ items_ := [1, 2, 9], size_ := 2, capacity_ := 3 } : SimpleVector Nat) ∧
    (ctor_move ({ items_ := [1, 2, 9], size_ := 2, capacity_ := 3 } : SimpleVector Nat)).1.contents
      = [1, 2] ∧
    (ctor_move ({ items_ := [1, 2, 9], size_ := 2, capacity_ := 3 } : SimpleVector Nat)).2.GetSize
      = 0 :=
  ⟨by decide,
   (ctor_move_spec { items_ := [1, 2, 9], size_ := 2, capacity_ := 3 } (by decide)).2.1,
   (ctor_move_spec { items_ := [1, 2, 9], size_ := 2, capacity_ := 3 } (by decide)).2.2.1⟩

/-- Supporting result for C13: for distinct objects, move assignment gives the
target the logical contents of the source and returns the source unchanged. -/
theorem operator_assign_move_general [Inhabited T] (a b : SimpleVector T) (hb : WF b) :
    (operator_assign_move a b).1.contents = b.contents ∧ (operator_assign_move a b).2 = b := by
  refine ⟨?_, rfl⟩
  show (ctor_copy b).contents = b.contents
  exact ctor_copy_contents b hb

/-- C13 at the failing input: move-assigning `b = [1]` to an empty `a` gives `a`
the contents `[1]`, but `b` still has `Size() = 1`, whereas move construction from
the same `b` leaves it with `Size() = 0`. -/
theorem operator_assign_move_keeps_source :
    (operator_assign_move (empty : SimpleVector Nat)
      { items_ := [1], size_ := 1, capacity_ := 1 }).1.contents = [1] ∧
    (operator_assign_move (empty : SimpleVector Nat)
      { items_ := [1], size_ := 1, capacity_ := 1 }).2.GetSize = 1 ∧
    (operator_assign_move (empty : SimpleVector Nat)
      { items_ := [1], size_ := 1, capacity_ := 1 }).2.GetSize ≠ 0 ∧
    (ctor_move ({ items_ := [1], size_ := 1, capacity_ := 1 } : SimpleVector Nat)).2.GetSize = 0 := by
  decide

/-- C15: `Clear()` sets the size to 0 and leaves the capacity and the whole buffer
as they were; a second `Clear()` gives the same state as the first, with size 0
after each call. -/
theorem Clear_spec (v : SimpleVector T) :
    (Clear v).GetSize = 0 ∧
    (Clear v).GetCapacity = v.GetCapacity ∧
    (Clear v).items_ = v.items_ ∧
    Clear (Clear v) = Clear v ∧
    (Clear (Clear v)).GetSize = 0 :=
  ⟨rfl, rfl, rfl, rfl, rfl⟩

end SimpleVector

/-- Supporting result for C14: for every pair of owning buffers with different
runs, move assignment gives the target the source's pointer and returns the
source unchanged, still owning. -/
theorem ArrayPtr.assign_move_copies_pointer (a b : ArrayPtr) (x y : Nat)
    (ha : a.raw_ptr_ = some x) (hb : b.raw_ptr_ = some y) (hxy : x ≠ y) :
    (ArrayPtr.operator_assign_move a b).1.raw_ptr_ = some y ∧
    (ArrayPtr.operator_assign_move a b).2 = b ∧
    (ArrayPtr.operator_assign_move a b).2.toBool = true := by
  have hne : a.raw_ptr_ ≠ b.raw_ptr_ := by
    rw [ha, hb]
    intro h
    exact hxy (Option.some.inj h)
  unfold ArrayPtr.operator_assign_move
  rw [if_pos hne]
  refine ⟨hb, rfl, ?_⟩
  simp [ArrayPtr.toBool, hb]

/-- C14 at the failing input: with `a` owning the run at address 1 and `b` the run
at address 2, move assignment leaves `a` holding address 2, but `b` still holds
address 2: its boolean conversion is true and `Release()` returns address 2, not
null, so both objects own the same run. -/
theorem ArrayPtr.assign_move_source_still_owns :
    (ArrayPtr.operator_assign_move { raw_ptr_ := some 1 } { raw_ptr_ := some 2 }).1.raw_ptr_
      = some 2 ∧
    (ArrayPtr.operator_assign_move { raw_ptr_ := some 1 } { raw_ptr_ := some 2 }).2.toBool
      = true ∧
    (ArrayPtr.operator_assign_move { raw_ptr_ := some 1 }
      { raw_ptr_ := some 2 }).2.Release.1 = some 2 ∧
    (ArrayPtr.operator_assign_move { raw_ptr_ := some 1 }
      { raw_ptr_ := some 2 }).2.Release.1 ≠ none ∧
    (ArrayPtr.operator_assign_move { raw_ptr_ := some 1 } { raw_ptr_ := some 2 }).1.raw_ptr_ =
      (ArrayPtr.operator_assign_move { raw_ptr_ := some 1 }
        { raw_ptr_ := some 2 }).2.raw_ptr_ := by
  decide

/-! ## Insert against PushBack and Erase -/

namespace SimpleVector

variable {T : Type}

theorem subscript_of_contents_eq (a b : SimpleVector T) (ha : WF a) (hb : WF b)
    (h : a.contents = b.contents) (i : Nat) (hi : i < a.size_) :
    ∃ y, subscript a i = .ok y ∧ subscript b i = .ok y := by
  obtain ⟨hs, hel⟩ := (contents_eq_iff a b ha hb).mp h
  obtain ⟨y, hy, _⟩ := subscript_ok a ha i hi
  exact ⟨y, hy, by rw [← hel i hi, hy]⟩

theorem eraseIdx_insert (xs : List T) (p : Nat) (x : T) (hp : p ≤ xs.length) :
    (xs.take p ++ [x] ++ xs.drop p).eraseIdx p = xs := by
  have hl : (xs.take p).length = p := by simp; omega
  rw [List.append_assoc, List.eraseIdx_append_of_length_le (by omega), hl, Nat.sub_self]
  simp

/-- C19: `Insert(begin() + p, v)` (the `Type&&` overload) followed by `Erase` on the
returned iterator succeeds and restores the size and the logical contents, so the result compares
`==` to the original; the capacity is not smaller than before. -/
theorem Insert_then_Erase [Inhabited T] [Zero T] [DecidableEq T] (v : SimpleVector T)
    (p : Nat) (value : T) (hwf : WF v) (hp : p ≤ v.GetSize) :
    ∃ r1 it1 r2 it2, InsertMove v p value = .ok (r1, it1) ∧ Erase r1 it1 = .ok (r2, it2) ∧
      r2.GetSize = v.GetSize ∧
      r2.contents = v.contents ∧
      eq r2 v = true ∧
      v.GetCapacity ≤ r2.GetCapacity := by
  obtain ⟨r1, hr1, hwf1, hs1, hc1, hcont1, _⟩ := InsertMove_spec_contents v p value hwf hp
  have hp1 : p < r1.size_ := by
    have : p ≤ v.size_ := hp
    omega
  obtain ⟨r2, hr2, _, hs2, hc2, hcont2⟩ := Erase_spec_contents r1 p hwf1 hp1
  have hcon : r2.contents = v.contents := by
    rw [hcont2, hcont1]
    exact eraseIdx_insert v.contents p value (by rw [contents_length v hwf]; exact hp)
  refine ⟨r1, p, r2, p, hr1, hr2, ?_, hcon, ?_, ?_⟩
  · show r2.size_ = v.size_
    omega
  · unfold eq
    rw [std_equal_iff]
    exact hcon
  · show v.capacity_ ≤ r2.capacity_
    rw [hc2, hc1]
    obtain ⟨h1, _⟩ := hwf
    split <;> omega

/-- Witness for C19: inserting 7 at position 1 of the full array `[1, 2]` and
erasing it again. -/
theorem Insert_then_Erase_witness :
    WF ({ items_ := [1, 2], size_ := 2, capacity_ := 2 } : SimpleVector Nat) ∧
    (∃ r1 it1 r2 it2,
      InsertMove ({ items_ := [1, 2], size_ := 2, capacity_ := 2 } : SimpleVector Nat) 1 7
        = .ok (r1, it1) ∧
      Erase r1 it1 = .ok (r2, it2) ∧ r2.contents = [1, 2]) :=
  ⟨by decide,
   (Insert_then_Erase { items_ := [1, 2], size_ := 2, capacity_ := 2 } 1 7 (by decide)
      (by decide)).imp (fun _ h => h.imp (fun _ k => k.imp (fun _ m => m.imp
        (fun _ n => ⟨n.1, n.2.1, n.2.2.2.1⟩))))⟩

end SimpleVector

/-! ## Trichotomy of the comparison operators -/

theorem std_lexicographical_compare_trichotomy {T : Type} [LinearOrder T] (xs ys : List T) :
    (std_lexicographical_compare xs ys = true ∧ xs ≠ ys ∧
        std_lexicographical_compare ys xs = false) ∨
    (std_lexicographical_compare xs ys = false ∧ xs = ys ∧
        std_lexicographical_compare ys xs = false) ∨
    (std_lexicographical_compare xs ys = false ∧ xs ≠ ys ∧
        std_lexicographical_compare ys xs = true) := by
  induction xs generalizing ys with
  | nil =>
    cases ys with
    | nil => right; left; simp [std_lexicographical_compare]
    | cons y ys => left; simp [std_lexicographical_compare]
  | cons x xs ih =>
    cases ys with
    | nil => right; right; simp [std_lexicographical_compare]
    | cons y ys =>
      rcases lt_trichotomy x y with hlt | heq | hgt
      · left
        have h2 : ¬ y < x := not_lt_of_gt hlt
        have h3 : x ≠ y := ne_of_lt hlt
        simp [std_lexicographical_compare, hlt, h2, h3]
      · subst heq
        have hirr : ¬ x < x := lt_irrefl x
        rcases ih ys with ⟨a, b, c⟩ | ⟨a, b, c⟩ | ⟨a, b, c⟩
        · left
          simp [std_lexicographical_compare, hirr, a, b, c]
        · right; left
          subst b
          simp [std_lexicographical_compare, hirr, a]
        · right; right
          simp [std_lexicographical_compare, hirr, a, b, c]
      · right; right
        have h2 : ¬ x < y := not_lt_of_gt hgt
        have h3 : x ≠ y := ne_of_gt hgt
        simp [std_lexicographical_compare, hgt, h2, h3]

namespace SimpleVector

variable {T : Type}

/-- C20: for a linearly ordered element type exactly one of `a < b`, `a == b`,
`a > b` holds, `a <= b` holds exactly when `a < b` or `a == b`, and `a >= b` holds
exactly when `a > b` or `a == b`. -/
theorem comparison_trichotomy [LinearOrder T] (a b : SimpleVector T) :
    ((lt a b = true ∧ eq a b = false ∧ gt a b = false) ∨
      (lt a b = false ∧ eq a b = true ∧ gt a b = false) ∨
      (lt a b = false ∧ eq a b = false ∧ gt a b = true)) ∧
    (le a b = true ↔ (lt a b = true ∨ eq a b = true)) ∧
    (ge a b = true ↔ (gt a b = true ∨ eq a b = true)) := by
  have heq : ∀ c : Bool, eq a b = c ↔ (decide (a.contents = b.contents) = c) := by
    intro c
    have h := std_equal_iff a.contents b.contents
    unfold eq
    cases hsb : std_equal a.contents b.contents <;> cases c <;> simp_all
  have key := std_lexicographical_compare_trichotomy a.contents b.contents
  simp only [lt, gt, le, ge, heq]
  rcases key with ⟨h1, h2, h3⟩ | ⟨h1, h2, h3⟩ | ⟨h1, h2, h3⟩
  · simp [h1, h2, h3]
  · have h4 : std_lexicographical_compare b.contents b.contents = false := by
      rw [h2] at h1
      exact h1
    simp [h2, h4]
  · simp [h1, h2, h3]

end SimpleVector

/-! ## The representation invariant across the interface -/

namespace SimpleVector

variable {T : Type}

theorem Reserve_WF [Inhabited T] [Zero T] (v : SimpleVector T) (n : Nat) (hwf : WF v) :
    WF (Reserve v n) := by
  by_cases h : n > v.capacity_
  · obtain ⟨hc, hs, hl, _⟩ := Reserve_spec_aux v n hwf h
    obtain ⟨h1, _⟩ := hwf
    refine ⟨?_, ?_⟩
    · rw [hs, hc]; omega
    · rw [hl, hc]
  · have hr : Reserve v n = v := by unfold Reserve; rw [if_neg h]
    rw [hr]
    exact hwf

theorem Resize_WF [Inhabited T] (v : SimpleVector T) (n : Nat) (hwf : WF v)
    (hsmall : n * 2 < 2 ^ SIZE_BITS) : WF (Resize v n) := by
  have hwf0 := hwf
  obtain ⟨h1, h2⟩ := hwf0
  by_cases e1 : n = v.size_
  · have hr : Resize v n = v := by unfold Resize; rw [if_pos e1]
    rw [hr]
    exact hwf
  · by_cases e2 : n < v.size_
    · have hr : Resize v n = { v with size_ := n } := by
        unfold Resize; rw [if_neg e1, if_pos e2]
      rw [hr]
      exact ⟨by show n ≤ v.capacity_; omega, h2⟩
    · obtain ⟨hs, hc, hl, _⟩ := Resize_grow_aux v n hwf (by omega) hsmall
      refine ⟨?_, hl⟩
      rw [hs, hc]
      split <;> omega

theorem ctor_WF [Inhabited T] (n : Nat) (x : T) (xs : List T) :
    WF (empty : SimpleVector T) ∧ WF (ctor_size n : SimpleVector T) ∧ WF (ctor_fill n x) ∧
      WF (ctor_init xs) := by
  refine ⟨⟨le_refl _, rfl⟩, ⟨le_refl _, ?_⟩, ⟨le_refl _, ?_⟩, ⟨le_refl _, ?_⟩⟩
  · simp [ctor_size, ArrayPtr_new_length]
  · simp [ctor_fill, std_fill_length, ArrayPtr_new_length]
  · simp [ctor_init, std_copy_length, ArrayPtr_new_length]

theorem operator_assign_copy_eq [Inhabited T] (v w : SimpleVector T) :
    operator_assign_copy v w = ctor_copy w := rfl

/-- C16 at the counterexample: after move construction from `[1, 2]` the source
has `capacity_ = 0` while the run it owns still has two elements. -/
theorem ctor_move_source_breaks_capacity :
    (ctor_move ({ items_ := [1, 2], size_ := 2, capacity_ := 2 } : SimpleVector Nat)).2.capacity_
      = 0 ∧
    (ctor_move ({ items_ := [1, 2], size_ := 2, capacity_ := 2 } :
      SimpleVector Nat)).2.items_.length = 2 ∧
    ¬ WF (ctor_move ({ items_ := [1, 2], size_ := 2, capacity_ := 2 } : SimpleVector Nat)).2 := by
  decide

/-- Supporting result for C16: starting from arrays whose capacity equals the
length of their buffer, every constructor and every operation called within its
precondition (for `Resize(n)`: with `2 * n` below `2 ^ 64`) ends in such an array;
the source of a move construction has size and capacity 0 and keeps its buffer. -/
theorem WF_preserved [Inhabited T] [Zero T] (v w : SimpleVector T) (n p : Nat) (x : T)
    (xs : List T) (hv : WF v) (hw : WF w) :
    (WF (empty : SimpleVector T) ∧ WF (ctor_size n : SimpleVector T) ∧ WF (ctor_fill n x) ∧
      WF (ctor_init xs) ∧ WF (ctor_copy v) ∧ WF (ctor_move v).1 ∧
      WF (ctor_reserve n : SimpleVector T)) ∧
    ((ctor_move v).2.GetSize = 0 ∧ (ctor_move v).2.GetCapacity = 0 ∧
      (ctor_move v).2.items_ = v.items_) ∧
    (WF (Reserve v n) ∧ (n * 2 < 2 ^ SIZE_BITS → WF (Resize v n)) ∧
      WF (PushBack v x) ∧ WF (PushBackMove v x) ∧ WF (Clear v)) ∧
    ((v.IsEmpty = false → ∃ r, PopBack v = .ok r ∧ WF r) ∧
      (p ≤ v.GetSize → ∃ r, InsertMove v p x = .ok (r, p) ∧ WF r) ∧
      (p < v.GetSize → ∃ r, Erase v p = .ok (r, p) ∧ WF r)) ∧
    (WF (swap v w).1 ∧ WF (swap v w).2 ∧ WF (operator_assign_copy v w) ∧
      WF (operator_assign_move v w).1 ∧ WF (operator_assign_move v w).2 ∧
      WF (operator_assign_self v)) := by
  obtain ⟨c0, c1, c2, c3⟩ := ctor_WF n x xs
  have hclear : ∀ u : SimpleVector T, WF u → WF (Clear u) := by
    intro u hu
    exact ⟨Nat.zero_le _, hu.2⟩
  refine ⟨⟨c0, c1, c2, c3, ctor_copy_WF v, ctor_copy_WF v, Reserve_WF _ n c0⟩,
    ⟨rfl, rfl, rfl⟩,
    ⟨Reserve_WF v n hv, Resize_WF v n hv, PushBack_WF v x hv, PushBack_WF v x hv,
      hclear v hv⟩,
    ⟨?_, ?_, ?_⟩,
    ⟨hw, hv, ctor_copy_WF w, ctor_copy_WF w, hw, ?_⟩⟩
  · intro hne
    have hpos : v.size_ ≠ 0 := by
      intro h0
      simp [IsEmpty, h0] at hne
    refine ⟨{ v with size_ := v.size_ - 1 }, ?_, ?_, hv.2⟩
    · unfold PopBack
      rw [hne]
      rfl
    · have := hv.1
      show v.size_ - 1 ≤ v.capacity_
      omega
  · intro hp
    obtain ⟨r, hr, hwfr, _⟩ := InsertMove_spec_contents v p x hv hp
    exact ⟨r, hr, hwfr⟩
  · intro hp
    obtain ⟨r, hr, hwfr, _⟩ := Erase_spec_contents v p hv hp
    exact ⟨r, hr, hwfr⟩
  · unfold operator_assign_self
    split
    · exact hclear v hv
    · exact hv

theorem Inv_of_WF (v : SimpleVector T) (h : WF v) : Inv v := ⟨h.1, Or.inl h.2⟩

theorem WF_of_Inv_of_pos (v : SimpleVector T) (h : Inv v) (hpos : v.size_ ≠ 0) : WF v := by
  obtain ⟨h1, h2 | ⟨h3, _⟩⟩ := h
  · exact ⟨h1, h2⟩
  · exact absurd h3 hpos

theorem Inv_Clear (v : SimpleVector T) (h : Inv v) : Inv (Clear v) := by
  obtain ⟨_, h2 | ⟨_, h4⟩⟩ := h
  · exact ⟨Nat.zero_le _, Or.inl h2⟩
  · exact ⟨Nat.zero_le _, Or.inr ⟨rfl, h4⟩⟩

theorem Reserve_grow_WF [Inhabited T] [Zero T] (v : SimpleVector T) (n : Nat)
    (hle : v.size_ ≤ v.capacity_) (hn : n > v.capacity_) : WF (Reserve v n) := by
  unfold Reserve
  rw [if_pos hn]
  refine ⟨?_, ?_⟩
  · show v.size_ ≤ n
    omega
  · simp [std_fill_length, std_move, std_copy_length, ArrayPtr_new_length]

theorem Resize_grow_WF [Inhabited T] (v : SimpleVector T) (n : Nat)
    (hn : v.size_ < n) (hsmall : n * 2 < 2 ^ SIZE_BITS) :
    WF (Resize v n) := by
  have e1 : ¬ n = v.size_ := by omega
  have e2 : ¬ n < v.size_ := by omega
  unfold Resize
  rw [if_neg e1, if_neg e2]
  refine ⟨?_, ?_⟩
  · show n ≤ (if n > v.capacity_ then (n * 2) % 2 ^ SIZE_BITS else v.capacity_)
    rw [Nat.mod_eq_of_lt hsmall]
    split <;> omega
  · simp [std_fill_length, std_move, std_copy_length, ArrayPtr_new_length]

theorem PushBack_grow_WF [Inhabited T] [Zero T] (v : SimpleVector T) (item : T)
    (hfull : v.capacity_ = v.size_) : WF (PushBack v item) := by
  unfold PushBack
  rw [if_pos hfull]
  refine ⟨?_, ?_⟩
  · show v.size_ + 1 ≤ (if v.size_ > 0 then v.size_ * 2 else 1)
    split <;> omega
  · simp [std_fill_length, std_copy_length, ArrayPtr_new_length]

theorem InsertMove_WF_of_le [Inhabited T] [Zero T] (v : SimpleVector T) (p : Nat) (value : T)
    (hle : v.size_ ≤ v.capacity_) (hp : p ≤ v.size_) :
    ∃ r, InsertMove v p value = .ok (r, p) ∧ WF r := by
  unfold InsertMove
  rw [if_pos hp]
  refine ⟨_, rfl, ?_, ?_⟩
  · show v.size_ + 1 ≤
      (if v.capacity_ = v.size_ then (if v.size_ > 0 then v.size_ * 2 else 1) else v.capacity_)
    split
    · split <;> omega
    · omega
  · simp [std_fill_length, std_move, std_copy_length, ArrayPtr_new_length]

/-- C16 as amended: the invariant "`size ≤ capacity`, and the capacity is the length
of the owned buffer unless size and capacity are both 0" holds after every
constructor and is kept by every operation called within its precondition (for
`Resize(n)`: with `2 * n` below `2 ^ 64`) on arrays that satisfy it, also for the
source of a move construction or move assignment; the source of a move construction
has size and capacity 0 and keeps its buffer; and arrays whose capacity equals the
length of their buffer stay so. -/
theorem invariant_spec [Inhabited T] [Zero T] (v w : SimpleVector T) (n p : Nat) (x : T)
    (xs : List T) (hv : Inv v) (hw : Inv w) :
    (WF (empty : SimpleVector T) ∧ WF (ctor_size n : SimpleVector T) ∧ WF (ctor_fill n x) ∧
      WF (ctor_init xs) ∧ WF (ctor_copy v) ∧ WF (ctor_move v).1 ∧
      WF (ctor_reserve n : SimpleVector T)) ∧
    ((ctor_move v).2.GetSize = 0 ∧ (ctor_move v).2.GetCapacity = 0 ∧
      (ctor_move v).2.items_ = v.items_ ∧ Inv (ctor_move v).2) ∧
    (Inv (Reserve v n) ∧ (n * 2 < 2 ^ SIZE_BITS → Inv (Resize v n)) ∧
      Inv (PushBack v x) ∧ Inv (PushBackMove v x) ∧ Inv (Clear v)) ∧
    ((v.IsEmpty = false → ∃ r, PopBack v = .ok r ∧ Inv r) ∧
      (p ≤ v.GetSize → ∃ r, InsertMove v p x = .ok (r, p) ∧ Inv r) ∧
      (p < v.GetSize → ∃ r, Erase v p = .ok (r, p) ∧ Inv r)) ∧
    (Inv (swap v w).1 ∧ Inv (swap v w).2 ∧ Inv (operator_assign_copy v w) ∧
      Inv (operator_assign_move v w).1 ∧ Inv (operator_assign_move v w).2 ∧
      Inv (operator_assign_self v)) ∧
    (WF v → WF w →
      WF (Reserve v n) ∧ (n * 2 < 2 ^ SIZE_BITS → WF (Resize v n)) ∧
      WF (PushBack v x) ∧ WF (PushBackMove v x) ∧ WF (Clear v) ∧
      (v.IsEmpty = false → ∃ r, PopBack v = .ok r ∧ WF r) ∧
      (p ≤ v.GetSize → ∃ r, InsertMove v p x = .ok (r, p) ∧ WF r) ∧
      (p < v.GetSize → ∃ r, Erase v p = .ok (r, p) ∧ WF r) ∧
      WF (swap v w).1 ∧ WF (swap v w).2 ∧ WF (operator_assign_copy v w) ∧
      WF (operator_assign_move v w).1 ∧ WF (operator_assign_move v w).2 ∧
      WF (operator_assign_self v)) := by
  obtain ⟨c0, c1, c2, c3⟩ := ctor_WF n x xs
  have hle : v.size_ ≤ v.capacity_ := hv.1
  have hpush : Inv (PushBack v x) := by
    by_cases hfull : v.capacity_ = v.size_
    · exact Inv_of_WF _ (PushBack_grow_WF v x hfull)
    · have hpos : v.size_ ≠ 0 ∨ v.capacity_ ≠ 0 := by omega
      have hwf : WF v := by
        obtain ⟨h1, h2 | ⟨h3, h4⟩⟩ := hv
        · exact ⟨h1, h2⟩
        · omega
      exact Inv_of_WF _ (PushBack_WF v x hwf)
  refine ⟨⟨c0, c1, c2, c3, ctor_copy_WF v, ctor_copy_WF v, Reserve_WF _ n c0⟩,
    ⟨rfl, rfl, rfl, ⟨le_refl _, Or.inr ⟨rfl, rfl⟩⟩⟩,
    ⟨?_, ?_, hpush, hpush, Inv_Clear v hv⟩,
    ⟨?_, ?_, ?_⟩,
    ⟨hw, hv, Inv_of_WF _ (ctor_copy_WF w), Inv_of_WF _ (ctor_copy_WF w), hw, ?_⟩, ?_⟩
  · by_cases h : n > v.capacity_
    · exact Inv_of_WF _ (Reserve_grow_WF v n hle h)
    · have hr : Reserve v n = v := by unfold Reserve; rw [if_neg h]
      rw [hr]
      exact hv
  · intro hsmall
    by_cases e1 : n = v.size_
    · have hr : Resize v n = v := by unfold Resize; rw [if_pos e1]
      rw [hr]
      exact hv
    · by_cases e2 : n < v.size_
      · have hwf : WF v := WF_of_Inv_of_pos v hv (by omega)
        exact Inv_of_WF _ (Resize_WF v n hwf hsmall)
      · exact Inv_of_WF _ (Resize_grow_WF v n (by omega) hsmall)
  · intro hne
    have hpos : v.size_ ≠ 0 := by
      intro h0
      simp [IsEmpty, h0] at hne
    have hwf : WF v := WF_of_Inv_of_pos v hv hpos
    refine ⟨{ v with size_ := v.size_ - 1 }, ?_, ?_, Or.inl hwf.2⟩
    · unfold PopBack
      rw [hne]
      rfl
    · show v.size_ - 1 ≤ v.capacity_
      omega
  · intro hp
    obtain ⟨r, hr, hwfr⟩ := InsertMove_WF_of_le v p x hle hp
    exact ⟨r, hr, Inv_of_WF _ hwfr⟩
  · intro hp
    have hp1 : p < v.size_ := hp
    have hwf : WF v := WF_of_Inv_of_pos v hv (by omega)
    obtain ⟨r, hr, hwfr, _⟩ := Erase_spec_contents v p hwf hp
    exact ⟨r, hr, Inv_of_WF _ hwfr⟩
  · unfold operator_assign_self
    split
    · exact Inv_Clear v hv
    · exact hv
  · intro hwv hww
    obtain ⟨_, _, ⟨a1, a2, a3, a4, a5⟩, ⟨b1, b2, b3⟩, ⟨d1, d2, d3, d4, d5, d6⟩⟩ :=
      WF_preserved v w n p x xs hwv hww
    exact ⟨a1, a2, a3, a4, a5, b1, b2, b3, d1, d2, d3, d4, d5, d6⟩

/-- Witness for C16: the source left by a move construction from `[1, 2]`, with
size and capacity 0 and its buffer of two elements, keeps the invariant under
`Clear` and regains a capacity equal to its buffer length with `PushBack`. -/
theorem invariant_spec_witness :
    Inv ({ items_ := [1, 2], size_ := 0, capacity_ := 0 } : SimpleVector Nat) ∧
    Inv (empty : SimpleVector Nat) ∧
    Inv (Clear ({ items_ := [1, 2], size_ := 0, capacity_ := 0 } : SimpleVector Nat)) ∧
    Inv (PushBack ({ items_ := [1, 2], size_ := 0, capacity_ := 0 } : SimpleVector Nat) 7) :=
  ⟨by decide, by decide,
   (invariant_spec { items_ := [1, 2], size_ := 0, capacity_ := 0 } empty 5 1 7 [4]
      (by decide) (by decide)).2.2.1.2.2.2.2,
   (invariant_spec { items_ := [1, 2], size_ := 0, capacity_ := 0 } empty 5 1 7 [4]
      (by decide) (by decide)).2.2.1.2.2.1⟩

/-! ## Fill of the slots beyond the size after a reallocation -/

theorem PushBack_tail [Inhabited T] [Zero T] (v : SimpleVector T) (item : T) (hwf : WF v)
    (hfull : v.capacity_ = v.size_) : TailFilled (PushBack v item) 0 := by
  obtain ⟨h1, h2⟩ := hwf
  intro i hi hc
  rw [PushBack_size] at hi
  have hcap : (PushBack v item).capacity_ = (if v.size_ > 0 then v.size_ * 2 else 1) := by
    unfold PushBack
    rw [if_pos hfull]
  rw [hcap] at hc
  unfold PushBack
  simp only [hfull, if_true, List.getElem?_set]
  have hne : ¬ v.size_ = i := by omega
  rw [if_neg hne, std_fill_getElem?, std_copy_length, ArrayPtr_new_length]
  have c : v.size_ ≤ i ∧ i < (if v.size_ > 0 then v.size_ * 2 else 1) ∧
      i < (if v.size_ > 0 then v.size_ * 2 else 1) := ⟨by omega, hc, hc⟩
  rw [if_pos c]

theorem InsertMove_tail [Inhabited T] [Zero T] (v : SimpleVector T) (p : Nat) (value : T)
    (hp : p ≤ v.size_) :
    ∃ r, InsertMove v p value = .ok (r, p) ∧ TailFilled r 0 := by
  unfold InsertMove std_move
  rw [if_pos hp]
  refine ⟨_, rfl, ?_⟩
  intro i hi hc
  simp only at hi hc ⊢
  rw [std_fill_getElem?, std_copy_length, List.length_set, std_copy_length,
    ArrayPtr_new_length]
  rw [if_pos ⟨hi, hc, hc⟩]

theorem Resize_tail [Inhabited T] (v : SimpleVector T) (n : Nat) (hn : n > v.size_) :
    TailFilled (Resize v n) default := by
  have e1 : ¬ n = v.size_ := by omega
  have e2 : ¬ n < v.size_ := by omega
  unfold Resize
  rw [if_neg e1, if_neg e2]
  intro i hi hc
  simp only at hi hc ⊢
  rw [std_fill_getElem?]
  simp only [std_move, std_copy_length, ArrayPtr_new_length]
  have c : v.size_ ≤ i := by omega
  rw [if_pos ⟨c, hc, hc⟩]

theorem Reserve_tail [Inhabited T] [Zero T] (v : SimpleVector T) (n : Nat) (hwf : WF v)
    (hn : n > v.capacity_) : TailFilled (Reserve v n) 0 := by
  obtain ⟨hc, hs, _, hg⟩ := Reserve_spec_aux v n hwf hn
  intro i hi hcap
  rw [hs] at hi
  rw [hc] at hcap
  have c : ¬ i < v.size_ := by omega
  rw [hg i, if_neg c, if_pos hcap]

/-- C17 at the counterexample: for an element type whose value converted from `0`
is not its default value, `Reserve(1)` on an empty array allocates a buffer whose
slot 0, which lies in `[size, capacity) = [0, 1)`, holds the converted `0` and not
the default value. -/
theorem Reserve_fill_is_zero_not_default :
    (Reserve (empty : SimpleVector Text) 1).GetSize = 0 ∧
    (Reserve (empty : SimpleVector Text) 1).GetCapacity = 1 ∧
    (Reserve (empty : SimpleVector Text) 1).items_[0]? = some 0 ∧
    (Reserve (empty : SimpleVector Text) 1).items_[0]? ≠ some default ∧
    ¬ TailFilled (Reserve (empty : SimpleVector Text) 1) default := by
  refine ⟨rfl, rfl, rfl, by decide, ?_⟩
  intro h
  have h0 := h 0 (le_refl _) (by decide)
  revert h0
  decide

/-- C17 as amended: whenever `Reserve`, `PushBack` or `Insert` allocates a new
buffer, every slot at an index in `[new size, new capacity)` holds the value the
literal `0` converts to; after a reallocating `Resize` these slots hold the default
value.  For an element type whose converted `0` is its default value (every
arithmetic type) all four hold the default value. -/
theorem realloc_fill_spec [Inhabited T] [Zero T] (v : SimpleVector T) (n p : Nat) (item : T)
    (hwf : WF v) :
    ((n > v.GetCapacity → TailFilled (Reserve v n) 0) ∧
      (n > v.GetSize → TailFilled (Resize v n) default) ∧
      (v.GetCapacity = v.GetSize →
        TailFilled (PushBack v item) 0 ∧ TailFilled (PushBackMove v item) 0) ∧
      (p ≤ v.GetSize →
        ∃ r, InsertMove v p item = .ok (r, p) ∧ TailFilled r 0)) ∧
    ((0 : T) = default →
      (n > v.GetCapacity → TailFilled (Reserve v n) default) ∧
      (n > v.GetSize → TailFilled (Resize v n) default) ∧
      (v.GetCapacity = v.GetSize →
        TailFilled (PushBack v item) default ∧ TailFilled (PushBackMove v item) default) ∧
      (p ≤ v.GetSize →
        ∃ r, InsertMove v p item = .ok (r, p) ∧ TailFilled r default)) := by
  have main : (n > v.GetCapacity → TailFilled (Reserve v n) 0) ∧
      (n > v.GetSize → TailFilled (Resize v n) default) ∧
      (v.GetCapacity = v.GetSize →
        TailFilled (PushBack v item) 0 ∧ TailFilled (PushBackMove v item) 0) ∧
      (p ≤ v.GetSize →
        ∃ r, InsertMove v p item = .ok (r, p) ∧ TailFilled r 0) := by
    refine ⟨Reserve_tail v n hwf, Resize_tail v n, ?_, ?_⟩
    · intro hfull
      exact ⟨PushBack_tail v item hwf hfull, PushBack_tail v item hwf hfull⟩
    · intro hp
      exact InsertMove_tail v p item hp
  refine ⟨main, ?_⟩
  intro h0
  obtain ⟨m1, m2, m3, m4⟩ := main
  refine ⟨?_, m2, ?_, ?_⟩
  · intro h
    have t := m1 h
    rw [h0] at t
    exact t
  · intro h
    have t := m3 h
    rw [h0] at t
    exact t
  · intro h
    have t := m4 h
    rw [h0] at t
    exact t

/-- Witness for C17: `PushBack(9)` on the full array `[4, 6]` of naturals leaves
slot 3 of the new buffer of 4 holding 0. -/
theorem realloc_fill_spec_witness :
    WF ({ items_ := [4, 6], size_ := 2, capacity_ := 2 } : SimpleVector Nat) ∧
    TailFilled (PushBack ({ items_ := [4, 6], size_ := 2, capacity_ := 2 } : SimpleVector Nat) 9)
      0 :=
  ⟨by decide,
   ((realloc_fill_spec { items_ := [4, 6], size_ := 2, capacity_ := 2 } 5 1 9
      (by decide)).1.2.2.1 rfl).1⟩

end SimpleVector

/-! ## Deep copy -/

namespace Heap

variable {T : Type}

theorem run_new_array (h : Heap T) (r : List T) (p : ArrayPtr) (hp : h.owns p) :
    (h.new_array r).1.run p = h.run p := by
  unfold new_array
  split
  · unfold run
    unfold owns at hp
    cases hptr : p.raw_ptr_ with
    | none => rfl
    | some a =>
      rw [hptr] at hp
      simp only at hp ⊢
      rw [List.getElem?_append_left hp]
  · rfl

theorem owns_new_array (h : Heap T) (r : List T) (p : ArrayPtr) (hp : h.owns p) :
    (h.new_array r).1.owns p := by
  unfold new_array
  split
  · unfold owns at hp ⊢
    cases hptr : p.raw_ptr_ with
    | none => trivial
    | some a =>
      rw [hptr] at hp
      simp only [List.length_append, List.length_singleton] at hp ⊢
      omega
  · exact hp

theorem new_array_ptr (h : Heap T) (r : List T) :
    (h.new_array r).2.raw_ptr_ = none ∨ (h.new_array r).2.raw_ptr_ = some h.cells.length := by
  unfold new_array
  split
  · right; rfl
  · left; rfl

theorem run_new_array_self (h : Heap T) (r : List T) :
    (h.new_array r).1.run (h.new_array r).2 = r := by
  unfold new_array
  split
  · simp [run]
  · rename_i hlen
    have : r = [] := by
      cases r with
      | nil => rfl
      | cons a as => simp at hlen
    simp [run, this]

theorem run_store (h : Heap T) (q p : ArrayPtr) (r : List T)
    (hq : q.raw_ptr_ = none ∨ q.raw_ptr_ ≠ p.raw_ptr_) : (h.store q r).run p = h.run p := by
  unfold store
  cases hqp : q.raw_ptr_ with
  | none => rfl
  | some b =>
    rw [hqp] at hq
    unfold run
    cases hptr : p.raw_ptr_ with
    | none => rfl
    | some a =>
      rw [hptr] at hq
      have hne : b ≠ a := by
        rcases hq with h0 | h1
        · cases h0
        · intro e
          exact h1 (by rw [e])
      simp only
      rw [List.getElem?_set_ne hne]

theorem run_delete (h : Heap T) (q p : ArrayPtr)
    (hq : q.raw_ptr_ = none ∨ q.raw_ptr_ ≠ p.raw_ptr_) : (h.delete q).run p = h.run p := by
  unfold delete
  cases hqp : q.raw_ptr_ with
  | none => rfl
  | some b =>
    rw [hqp] at hq
    unfold run
    cases hptr : p.raw_ptr_ with
    | none => rfl
    | some a =>
      rw [hptr] at hq
      have hne : b ≠ a := by
        rcases hq with h0 | h1
        · cases h0
        · intro e
          exact h1 (by rw [e])
      simp only
      rw [List.getElem?_set_ne hne]

theorem owns_store (h : Heap T) (q p : ArrayPtr) (r : List T) (hp : h.owns p) :
    (h.store q r).owns p := by
  unfold store
  cases hqp : q.raw_ptr_ with
  | none => exact hp
  | some b =>
    unfold owns at hp ⊢
    cases hptr : p.raw_ptr_ with
    | none => trivial
    | some a =>
      rw [hptr] at hp
      simp only [List.length_set] at hp ⊢
      exact hp

theorem owns_delete (h : Heap T) (q p : ArrayPtr) (hp : h.owns p) :
    (h.delete q).owns p := by
  unfold delete
  cases hqp : q.raw_ptr_ with
  | none => exact hp
  | some b =>
    unfold owns at hp ⊢
    cases hptr : p.raw_ptr_ with
    | none => trivial
    | some a =>
      rw [hptr] at hp
      simp only [List.length_set] at hp ⊢
      exact hp

theorem new_array_fresh (h : Heap T) (r : List T) (p : ArrayPtr) (hp : h.owns p) :
    (h.new_array r).2.raw_ptr_ = none ∨ (h.new_array r).2.raw_ptr_ ≠ p.raw_ptr_ := by
  rcases new_array_ptr h r with h0 | h1
  · left; exact h0
  · right
    rw [h1]
    unfold owns at hp
    cases hptr : p.raw_ptr_ with
    | none => simp
    | some a =>
      rw [hptr] at hp
      simp only at hp
      intro e
      have := Option.some.inj e
      omega

end Heap

namespace HeapVector

variable {T : Type}

theorem commit_frame (h : Heap T) (s c : HeapVector) (v1 : SimpleVector T) (swapped : Bool)
    (hsep : Separate h s c) :
    view (commit h c v1 swapped).1 s = view h s ∧
      Separate (commit h c v1 swapped).1 s (commit h c v1 swapped).2 := by
  obtain ⟨hown, hne⟩ := hsep
  unfold commit
  cases swapped with
  | true =>
    simp only [if_true]
    refine ⟨?_, ?_, ?_⟩
    · unfold view
      rw [Heap.run_delete _ _ _ hne, Heap.run_new_array _ _ _ hown]
    · exact Heap.owns_delete _ _ _ (Heap.owns_new_array _ _ _ hown)
    · exact Heap.new_array_fresh h v1.items_ s.items_ hown
  | false =>
    simp only [Bool.false_eq_true, if_false]
    refine ⟨?_, ?_, ?_⟩
    · unfold view
      rw [Heap.run_store _ _ _ _ hne]
    · exact Heap.owns_store _ _ _ _ hown
    · exact hne

theorem apply_frame [Inhabited T] [Zero T] (h : Heap T) (s c : HeapVector) (m : Mutation T)
    (hsep : Separate h s c) (h1 : Heap T) (c1 : HeapVector)
    (hrun : apply h c m = .ok (h1, c1)) :
    view h1 s = view h s ∧ Separate h1 s c1 := by
  have key : ∀ (v1 : SimpleVector T) (sw : Bool), commit h c v1 sw = (h1, c1) →
      view h1 s = view h s ∧ Separate h1 s c1 := by
    intro v1 sw e
    have hf := commit_frame h s c v1 sw hsep
    rw [e] at hf
    exact hf
  cases m with
  | write index value =>
    simp only [apply] at hrun
    cases hw : SimpleVector.assign_at (view h c) index value with
    | error e =>
      rw [hw] at hrun
      cases hrun
    | ok v1 =>
      rw [hw] at hrun
      exact key v1 false (Except.ok.inj hrun)
  | pushBack item =>
    simp only [apply] at hrun
    exact key _ _ (Except.ok.inj hrun)
  | insert n_pos value =>
    simp only [apply] at hrun
    cases hw : SimpleVector.InsertMove (view h c) n_pos value with
    | error e =>
      rw [hw] at hrun
      cases hrun
    | ok r =>
      rw [hw] at hrun
      exact key r.1 true (Except.ok.inj hrun)
  | erase n_pos =>
    simp only [apply] at hrun
    cases hw : SimpleVector.Erase (view h c) n_pos with
    | error e =>
      rw [hw] at hrun
      cases hrun
    | ok r =>
      rw [hw] at hrun
      exact key r.1 false (Except.ok.inj hrun)
  | resize new_size =>
    simp only [apply] at hrun
    exact key _ _ (Except.ok.inj hrun)
  | clear =>
    simp only [apply] at hrun
    exact key _ false (Except.ok.inj hrun)

theorem applyAll_frame [Inhabited T] [Zero T] (ms : List (Mutation T)) (h : Heap T)
    (s c : HeapVector) (hsep : Separate h s c) (h2 : Heap T) (c2 : HeapVector)
    (hrun : applyAll h c ms = .ok (h2, c2)) : view h2 s = view h s := by
  induction ms generalizing h c with
  | nil =>
    unfold applyAll at hrun
    cases hrun
    rfl
  | cons m ms ih =>
    unfold applyAll at hrun
    split at hrun
    · rename_i h1 c1 hstep
      obtain ⟨hv, hsep1⟩ := apply_frame h s c m hsep h1 c1 hstep
      rw [ih h1 c1 hsep1 hrun, hv]
    · cases hrun

theorem view_ctor_copy [Inhabited T] (h : Heap T) (s : HeapVector) :
    view (ctor_copy h s).1 (ctor_copy h s).2 = SimpleVector.ctor_copy (view h s) := by
  unfold ctor_copy view
  simp only [Heap.run_new_array_self]

/-- C11: the copy `c` of a source `s` has the logical contents of `s` (so `c == s`
and the elements agree index by index) with `Size() = Capacity() = s.Size()`; the
copy constructor leaves `s` as it was; and after any sequence of element writes,
`PushBack`, `Insert`, `Erase`, `Resize` and `Clear` on `c` that runs to completion,
the size, capacity and buffer of `s` are still the same. -/
theorem ctor_copy_spec [Inhabited T] [Zero T] [DecidableEq T] (h : Heap T) (s : HeapVector)
    (hwf : SimpleVector.WF (view h s)) (hown : h.owns s.items_) :
    ((view (ctor_copy h s).1 (ctor_copy h s).2).contents = (view h s).contents ∧
      SimpleVector.eq (view (ctor_copy h s).1 (ctor_copy h s).2) (view h s) = true ∧
      (∀ i, i < (view h s).GetSize →
        ∃ y, SimpleVector.subscript (view h s) i = .ok y ∧
          SimpleVector.subscript (view (ctor_copy h s).1 (ctor_copy h s).2) i = .ok y)) ∧
    ((view (ctor_copy h s).1 (ctor_copy h s).2).GetSize = (view h s).GetSize ∧
      (view (ctor_copy h s).1 (ctor_copy h s).2).GetCapacity = (view h s).GetSize) ∧
    view (ctor_copy h s).1 s = view h s ∧
    (∀ (ms : List (Mutation T)) (h2 : Heap T) (c2 : HeapVector),
      applyAll (ctor_copy h s).1 (ctor_copy h s).2 ms = .ok (h2, c2) → view h2 s = view h s) := by
  have hview := view_ctor_copy h s
  have hcon : (view (ctor_copy h s).1 (ctor_copy h s).2).contents = (view h s).contents := by
    rw [hview]
    exact SimpleVector.ctor_copy_contents _ hwf
  have hwfc : SimpleVector.WF (view (ctor_copy h s).1 (ctor_copy h s).2) := by
    rw [hview]
    exact SimpleVector.ctor_copy_WF _
  have hs1 : view (ctor_copy h s).1 s = view h s := by
    unfold view
    rw [show (ctor_copy h s).1 = (h.new_array (SimpleVector.ctor_copy (view h s)).items_).1
      from rfl, Heap.run_new_array _ _ _ hown]
  have hsep : Separate (ctor_copy h s).1 s (ctor_copy h s).2 :=
    ⟨Heap.owns_new_array _ _ _ hown, Heap.new_array_fresh h _ s.items_ hown⟩
  refine ⟨⟨hcon, ?_, ?_⟩, ⟨?_, ?_⟩, hs1, ?_⟩
  · unfold SimpleVector.eq
    rw [std_equal_iff]
    exact hcon
  · intro i hi
    exact SimpleVector.subscript_of_contents_eq _ _ hwf hwfc hcon.symm i hi
  · rw [hview]; rfl
  · rw [hview]; rfl
  · intro ms h2 c2 hrun
    rw [applyAll_frame ms _ s _ hsep h2 c2 hrun, hs1]

/-- Supporting result for C11: separation is what the frame property rests on.  An
object that shares the pointer of `s` (as a member-wise copy would) makes a write
through it visible in `s`. -/
theorem shared_pointer_write_is_visible :
    ∃ h1 c1,
      apply ({ cells := [some [1, 2]] } : Heap Nat)
        { items_ := { raw_ptr_ := some 0 }, size_ := 2, capacity_ := 2 } (.write 0 5)
        = .ok (h1, c1) ∧
      view h1 { items_ := { raw_ptr_ := some 0 }, size_ := 2, capacity_ := 2 } ≠
        view ({ cells := [some [1, 2]] } : Heap Nat)
          { items_ := { raw_ptr_ := some 0 }, size_ := 2, capacity_ := 2 } :=
  ⟨{ cells := [some [5, 2]] }, { items_ := { raw_ptr_ := some 0 }, size_ := 2, capacity_ := 2 },
   rfl, by decide⟩

/-- Witness for C11: `s = [1, 2]` in a buffer of 3 at address 0 is copied, the copy
goes through a write, a `PushBack`, an `Insert`, an `Erase`, a `Resize` and a `Clear`,
and `s` is still the same. -/
theorem ctor_copy_spec_witness :
    SimpleVector.WF (view ({ cells := [some [1, 2, 9]] } : Heap Nat)
      { items_ := { raw_ptr_ := some 0 }, size_ := 2, capacity_ := 3 }) ∧
    ({ cells := [some [1, 2, 9]] } : Heap Nat).owns { raw_ptr_ := some 0 } ∧
    ∃ h2 c2,
      applyAll
        (ctor_copy ({ cells := [some [1, 2, 9]] } : Heap Nat)
          { items_ := { raw_ptr_ := some 0 }, size_ := 2, capacity_ := 3 }).1
        (ctor_copy ({ cells := [some [1, 2, 9]] } : Heap Nat)
          { items_ := { raw_ptr_ := some 0 }, size_ := 2, capacity_ := 3 }).2
        [.write 0 5, .pushBack 7, .insert 1 8, .erase 0, .resize 6, .clear] = .ok (h2, c2) ∧
      view h2 { items_ := { raw_ptr_ := some 0 }, size_ := 2, capacity_ := 3 } =
        view ({ cells := [some [1, 2, 9]] } : Heap Nat)
          { items_ := { raw_ptr_ := some 0 }, size_ := 2, capacity_ := 3 } :=
  ⟨by decide, Nat.zero_lt_one,
   { cells := [some [1, 2, 9], none, none, none, some [8, 2, 7, 0, 0, 0, 0, 0, 0, 0, 0, 0]] },
   { items_ := { raw_ptr_ := some 4 }, size_ := 0, capacity_ := 12 }, rfl,
   (ctor_copy_spec ({ cells := [some [1, 2, 9]] } : Heap Nat)
      { items_ := { raw_ptr_ := some 0 }, size_ := 2, capacity_ := 3 } (by decide)
      Nat.zero_lt_one).2.2.2
      [.write 0 5, .pushBack 7, .insert 1 8, .erase 0, .resize 6, .clear]
      { cells := [some [1, 2, 9], none, none, none, some [8, 2, 7, 0, 0, 0, 0, 0, 0, 0, 0, 0]] }
      { items_ := { raw_ptr_ := some 4 }, size_ := 0, capacity_ := 12 } rfl⟩

end HeapVector

/-! ## PushBack with a reference into the array's own buffer -/

namespace Heap

variable {T : Type}

theorem run_store_set (h : Heap T) (p : ArrayPtr) (i : Nat) (x : T) (hown : h.owns p) :
    (h.store p ((h.run p).set i x)).run p = (h.run p).set i x := by
  unfold owns at hown
  unfold store run
  cases hptr : p.raw_ptr_ with
  | none => simp
  | some a =>
    rw [hptr] at hown
    simp only at hown ⊢
    rw [List.getElem?_set_self hown]

theorem run_delete_other (h : Heap T) (q p : ArrayPtr)
    (hp : p.raw_ptr_ = none ∨ p.raw_ptr_ ≠ q.raw_ptr_) : (h.delete q).run p = h.run p := by
  rcases hp with h0 | h1
  · unfold run
    rw [h0]
  · exact run_delete h q p (Or.inr (fun e => h1 e.symm))

theorem owns_new_array_self (h : Heap T) (r : List T) :
    (h.new_array r).1.owns (h.new_array r).2 := by
  unfold new_array
  split
  · unfold owns
    simp
  · trivial

end Heap

namespace HeapVector

variable {T : Type}

/-- Supporting result for C1: when `item` refers to an object outside the array's
buffer, both overloads of `PushBack` succeed and the object they leave is the one
the value model `SimpleVector.PushBack` computes. -/
theorem PushBack_object [Inhabited T] [Zero T] (h : Heap T) (c : HeapVector) (x : T)
    (hown : h.owns c.items_) :
    ∃ h1 c1, PushBack h c (.object x) = .ok (h1, c1) ∧
      PushBackMove h c (.object x) = .ok (h1, c1) ∧
      view h1 c1 = SimpleVector.PushBack (view h c) x := by
  refine ⟨_, _, rfl, rfl, ?_⟩
  by_cases hfull : c.capacity_ = c.size_
  · simp only [hfull, if_true]
    unfold view
    rw [Heap.run_store_set _ _ _ _
      (Heap.owns_delete _ _ _ (Heap.owns_new_array_self _ _)),
      Heap.run_delete_other _ _ _ (Heap.new_array_fresh h _ c.items_ hown),
      Heap.run_new_array_self]
    simp only [SimpleVector.PushBack, hfull, if_true]
  · simp only [hfull, if_false]
    unfold view
    rw [Heap.run_store_set _ _ _ _ hown]
    simp only [SimpleVector.PushBack, hfull, if_false]

/-- C1 at the failing input: for the full array `[4, 6]`, `v.PushBack(v[0])` (either
overload) reads `item` from the old run after that run was deleted; the same call
with an object outside the buffer holding 4 gives `[4, 6, 4]` with capacity 4; and
on an array that is not full the element reference is read from a live run. -/
theorem PushBack_own_element_reads_deleted_run :
    PushBack ({ cells := [some [4, 6]] } : Heap Nat)
      { items_ := { raw_ptr_ := some 0 }, size_ := 2, capacity_ := 2 } (.element 0)
      = .error .use_after_free ∧
    PushBackMove ({ cells := [some [4, 6]] } : Heap Nat)
      { items_ := { raw_ptr_ := some 0 }, size_ := 2, capacity_ := 2 } (.element 0)
      = .error .use_after_free ∧
    (∃ h1 c1,
      PushBack ({ cells := [some [4, 6]] } : Heap Nat)
        { items_ := { raw_ptr_ := some 0 }, size_ := 2, capacity_ := 2 } (.object 4)
        = .ok (h1, c1) ∧
      view h1 c1 = { items_ := [4, 6, 4, 0], size_ := 3, capacity_ := 4 }) ∧
    (∃ h1 c1,
      PushBack ({ cells := [some [4, 6, 9]] } : Heap Nat)
        { items_ := { raw_ptr_ := some 0 }, size_ := 2, capacity_ := 3 } (.element 0)
        = .ok (h1, c1) ∧
      view h1 c1 = { items_ := [4, 6, 4], size_ := 3, capacity_ := 3 }) :=
  ⟨rfl, rfl,
   ⟨{ cells := [none, some [4, 6, 4, 0]] },
    { items_ := { raw_ptr_ := some 1 }, size_ := 3, capacity_ := 4 }, rfl, rfl⟩,
   ⟨{ cells := [some [4, 6, 4]] },
    { items_ := { raw_ptr_ := some 0 }, size_ := 3, capacity_ := 3 }, rfl, rfl⟩⟩

end HeapVector

end SimpleVectorModel
